import Mathlib

/-!
# linkparser: link extraction over a parsed HTML tree

A shallow embedding of `urlParser/urlParser.go` (the tree extractor) and of the
record-cleaning loop of `parseHandler` in `main.go`, followed by theorems about them.

Modelling conventions.
* Go strings are modelled by Lean strings (sequences of Unicode code points), i.e. the
  strings are assumed to be valid UTF-8, as the text handed out by the HTML parser is.
* `html.Node` is a finite rose tree: the `FirstChild`/`NextSibling` chain of a node is
  the list `children`. The fields the program never reads (`Parent`, `DataAtom`,
  the node's `Namespace`) are left out.
* A Go `for` loop that appends to a slice is a recursive function over the list that
  carries the slice built so far, named after the source function with the suffix `Loop`.
* Library functions (`strings.TrimSpace`, `strings.HasPrefix`, `strings.TrimPrefix`,
  `regexp.FindAllString` for the one pattern of the program, `mail.ParseAddress`) are
  modelled from their documented behaviour; each model says what it covers.
-/

namespace LinkParser

/-! ## The node tree (golang.org/x/net/html) -/

/-- The node kinds of `html.NodeType`. -/
inductive NodeType where
  | ErrorNode
  | TextNode
  | DocumentNode
  | ElementNode
  | CommentNode
  | DoctypeNode
  | RawNode
  deriving DecidableEq, Repr

/-- An attribute, `html.Attribute`. -/
structure Attribute where
  Namespace : String
  Key : String
  Val : String
  deriving DecidableEq, Repr

/-- A node, `html.Node`: its kind (`Type` in Go), its `Data` (tag name of an element,
content of a text node), its attributes in order, and its children in order. -/
inductive Node where
  | mk (nodeType : NodeType) (Data : String) (Attr : List Attribute) (children : List Node)

/-- The field `Type` of a node. -/
def Node.nodeType : Node → NodeType
  | .mk t _ _ _ => t

/-- The field `Data` of a node. -/
def Node.Data : Node → String
  | .mk _ d _ _ => d

/-- The field `Attr` of a node. -/
def Node.Attr : Node → List Attribute
  | .mk _ _ a _ => a

/-- The children of a node, first child first. -/
def Node.children : Node → List Node
  | .mk _ _ _ cs => cs

/-! ## Records -/

/-- The record `Image` of urlParser.go. -/
structure Image where
  Src : String
  Alt : String
  deriving DecidableEq, Repr

/-- The record `URL` of urlParser.go. -/
structure URL where
  Href : String
  Content : String
  Images : List Image
  Emails : List String
  deriving DecidableEq, Repr

/-! ## Library functions on strings -/

/-- White space as `unicode.IsSpace` defines it (Unicode's White Space property): tab, line
feed, vertical tab, form feed, carriage return, space, U+0085, U+00A0, U+1680, U+2000 to
U+200A, U+2028, U+2029, U+202F, U+205F and U+3000. -/
def isSpace (c : Char) : Bool :=
  c = '\t' || c = '\n' || c = Char.ofNat 0x0B || c = Char.ofNat 0x0C || c = '\r' || c = ' '
    || c = Char.ofNat 0x85 || c = Char.ofNat 0xA0 || c = Char.ofNat 0x1680
    || (0x2000 ≤ c.toNat && c.toNat ≤ 0x200A)
    || c = Char.ofNat 0x2028 || c = Char.ofNat 0x2029 || c = Char.ofNat 0x202F
    || c = Char.ofNat 0x205F || c = Char.ofNat 0x3000

/-- Model of `strings.TrimSpace`: the string without its leading and trailing white space. -/
def TrimSpace (s : String) : String :=
  ⟨((s.data.dropWhile isSpace).reverse.dropWhile isSpace).reverse⟩

/-- Model of `strings.HasPrefix s p`: `s` begins with `p`. -/
def HasPrefix (s p : String) : Bool :=
  p.data.isPrefixOf s.data

/-- Model of `strings.TrimPrefix s p`: `s` without the leading `p`, or `s` itself when it
does not begin with `p`. -/
def TrimPrefix (s p : String) : String :=
  if HasPrefix s p then ⟨s.data.drop p.data.length⟩ else s

/-! ## The email pattern (regexp) -/

/-- A word character in the sense of the regexp assertion `\b`: `[0-9A-Za-z_]`. -/
def isWordChar (c : Char) : Bool :=
  ('0' ≤ c && c ≤ '9') || ('A' ≤ c && c ≤ 'Z') || c = '_' || ('a' ≤ c && c ≤ 'z')

/-- The class `[a-zA-Z0-9]`. -/
def isAlnum (c : Char) : Bool :=
  ('a' ≤ c && c ≤ 'z') || ('A' ≤ c && c ≤ 'Z') || ('0' ≤ c && c ≤ '9')

/-- The class `[a-zA-Z0-9._%+-]` of the local part. -/
def isLocalChar (c : Char) : Bool :=
  isAlnum c || c = '.' || c = '_' || c = '%' || c = '+' || c = '-'

/-- The class `[a-zA-Z0-9.-]` of the domain. -/
def isDomainChar (c : Char) : Bool :=
  isAlnum c || c = '.' || c = '-'

/-- The class `[a-zA-Z]` of the last label. -/
def isLetter (c : Char) : Bool :=
  ('a' ≤ c && c ≤ 'z') || ('A' ≤ c && c ≤ 'Z')

/-- The assertion `\b` between the character before the position and the one after it
(`none` at either end of the text): exactly one of the two is a word character. -/
def wordBoundary (before after : Option Char) : Bool :=
  (before.any isWordChar) != (after.any isWordChar)

/-- The choice a greedy repetition makes: the largest count `k` from the given one down to
`lo` for which the rest of the pattern, `f k`, matches. -/
def firstDown {α : Type} (lo : Nat) (f : Nat → Option α) : Nat → Option α
  | 0 => if lo = 0 then f 0 else none
  | k + 1 =>
    if k + 1 < lo then none
    else match f (k + 1) with
      | some r => some r
      | none => firstDown lo f k

/-- The tail `[a-zA-Z]{2,}\b` of the pattern at the start of `s3`: the number of
characters matched. -/
def matchTld (s3 : List Char) : Option Nat :=
  firstDown 2 (fun k =>
    if wordBoundary ((s3.take k).getLast?) ((s3.drop k).head?) then some k else none)
    (s3.takeWhile isLetter).length

/-- The tail `[a-zA-Z0-9.-]+\.[a-zA-Z]{2,}\b` of the pattern at the start of `s2`. -/
def matchDomain (s2 : List Char) : Option Nat :=
  firstDown 1 (fun j =>
    match s2.drop j with
    | '.' :: s3 => (matchTld s3).map (fun k => j + 1 + k)
    | _ => none)
    (s2.takeWhile isDomainChar).length

/-- The whole pattern `\b[a-zA-Z0-9._%+-]+@[a-zA-Z0-9.-]+\.[a-zA-Z]{2,}\b` anchored at the
start of `s`, where `before` is the character of the text just before `s`: the length of
the match the leftmost-first (backtracking, greedy) semantics of Go's regexp selects. -/
def matchHere (before : Option Char) (s : List Char) : Option Nat :=
  if wordBoundary before s.head? then
    firstDown 1 (fun i =>
      match s.drop i with
      | '@' :: s2 => (matchDomain s2).map (fun j => i + 1 + j)
      | _ => none)
      (s.takeWhile isLocalChar).length
  else none

/-- The scan of `FindAllString`: `skip` is the number of characters still inside the last
match (the next match starts where the last one ended), `before` the previous character. -/
def findAllAux : Option Char → Nat → List Char → List String
  | _, _, [] => []
  | _, skip + 1, c :: cs => findAllAux (some c) skip cs
  | before, 0, c :: cs =>
    match matchHere before (c :: cs) with
    | some len => String.mk ((c :: cs).take len) :: findAllAux (some c) (len - 1) cs
    | none => findAllAux (some c) 0 cs

/-- Model of `emailRegex.FindAllString(text, -1)`: the successive leftmost,
non-overlapping matches of the email pattern in `text`. -/
def FindAllString (text : String) : List String :=
  findAllAux none 0 text.data

/-! ## The address grammar (net/mail) -/

/-- A visible ASCII character or a multi-byte one, `isVchar` of net/mail. -/
def isVchar (r : Char) : Bool :=
  (0x21 ≤ r.toNat && r.toNat ≤ 0x7e) || 0x80 ≤ r.toNat

/-- An RFC 5322 atext character, `isAtext` of net/mail; the period counts when `dot`. -/
def isAtext (r : Char) (dot : Bool) : Bool :=
  if r = '.' then dot
  else if r = '(' || r = ')' || r = '<' || r = '>' || r = '[' || r = ']' || r = ':'
      || r = ';' || r = '@' || r = Char.ofNat 92 || r = ',' || r = Char.ofNat 34 then false
  else isVchar r

/-- Whether two periods follow each other in the list. -/
def hasDoubleDot : List Char → Bool
  | '.' :: '.' :: _ => true
  | _ :: cs => hasDoubleDot cs
  | [] => false

/-- The strict dot-atom of net/mail, `consumeAtom(true, false)`: the longest run of
atext characters and periods at the start of the input, refused when it is empty, begins
or ends with a period, or holds two periods in a row; with the rest of the input. -/
def consumeAtom (s : List Char) : Option (List Char × List Char) :=
  let atom := s.takeWhile (fun r => isAtext r true)
  if atom = [] then none
  else if atom.head? = some '.' then none
  else if hasDoubleDot atom then none
  else if atom.getLast? = some '.' then none
  else some (atom, s.dropWhile (fun r => isAtext r true))

/-- Whether `mail.ParseAddress` accepts the string (returns a nil error), for strings that
hold no white space, quote, parenthesis, bracket, angle bracket, colon, semicolon, comma or
backslash, which is what the email pattern can match. On such a string the parser can only
succeed through its addr-spec branch: a strict dot-atom, `@`, a strict dot-atom, and the
end of the input (the display-name branch needs `<` or `:`). -/
def parseAddressOk (email : String) : Bool :=
  match consumeAtom email.data with
  | some (_, '@' :: rest) =>
    (match consumeAtom rest with
     | some (_, []) => true
     | _ => false)
  | _ => false

/-! ## urlParser.go -/

/-- The function `isAnchorNode`. -/
def isAnchorNode (n : Node) : Bool :=
  n.nodeType = NodeType.ElementNode && n.Data = "a"

/-- The loop of `getHref` over the attributes left to read. -/
def getHrefLoop : List Attribute → String
  | [] => ""
  | attr :: rest => if attr.Key = "href" then attr.Val else getHrefLoop rest

/-- The function `getHref`. -/
def getHref (n : Node) : String :=
  getHrefLoop n.Attr

mutual
/-- The function `getText`; the builder is trimmed on every return. -/
def getText : Node → String
  | .mk .TextNode d _ _ => TrimSpace ("" ++ d)
  | .mk .ElementNode _ _ cs => TrimSpace (getTextLoop "" cs)
  | .mk _ _ _ _ => TrimSpace ""
/-- The loop of `getText` over the children left to read, `text` being the builder. -/
def getTextLoop (text : String) : List Node → String
  | [] => text
  | c :: cs => getTextLoop (text ++ getText c) cs
end

/-- The loop of `parseImage` over the attributes left to read. -/
def parseImageLoop (img : Image) : List Attribute → Image
  | [] => img
  | attr :: rest =>
    if attr.Key = "src" then parseImageLoop { img with Src := attr.Val } rest
    else if attr.Key = "alt" then parseImageLoop { img with Alt := attr.Val } rest
    else parseImageLoop img rest

/-- The function `parseImage`. -/
def parseImage (n : Node) : Image :=
  parseImageLoop { Src := "", Alt := "" } n.Attr

mutual
/-- The function `getImages`. -/
def getImages : Node → List Image
  | .mk t d a cs =>
    let images : List Image :=
      if t = NodeType.ElementNode && d = "img" then [] ++ [parseImage (.mk t d a cs)] else []
    images ++ parseChildImagesLoop [] cs
/-- The loop of `parseChildImages` over the children left to read. -/
def parseChildImagesLoop (images : List Image) : List Node → List Image
  | [] => images
  | c :: cs => parseChildImagesLoop (images ++ getImages c) cs
end

/-- The function `parseChildImages`. -/
def parseChildImages (n : Node) : List Image :=
  parseChildImagesLoop [] n.children

/-- The loop of `parseEmailLink` over the attributes left to read; it stops at the first
attribute with key `href` and a value beginning with `mailto:`. -/
def parseEmailLinkLoop : List Attribute → List String
  | [] => []
  | attr :: rest =>
    if attr.Key = "href" && HasPrefix attr.Val "mailto:" then
      [] ++ [TrimPrefix attr.Val "mailto:"]
    else parseEmailLinkLoop rest

/-- The function `parseEmailLink`. -/
def parseEmailLink (n : Node) : List String :=
  parseEmailLinkLoop n.Attr

/-- The loop of `extractEmails` over the matches left to read. -/
def extractEmailsLoop (validEmails : List String) : List String → List String
  | [] => validEmails
  | email :: rest =>
    if parseAddressOk email then extractEmailsLoop (validEmails ++ [email]) rest
    else extractEmailsLoop validEmails rest

/-- The function `extractEmails`. -/
def extractEmails (text : String) : List String :=
  extractEmailsLoop [] (FindAllString text)

mutual
/-- The function `getEmails`. -/
def getEmails : Node → List String
  | .mk t d a cs =>
    let emails : List String :=
      if isAnchorNode (.mk t d a cs) then parseEmailLink (.mk t d a cs) else []
    let text := getText (.mk t d a cs)
    let emailMatches := extractEmails text
    let emails := emails ++ emailMatches
    emails ++ parseChildEmailsLoop [] cs
/-- The loop of `parseChildEmails` over the children left to read. -/
def parseChildEmailsLoop (emails : List String) : List Node → List String
  | [] => emails
  | c :: cs => parseChildEmailsLoop (emails ++ getEmails c) cs
end

/-- The function `parseChildEmails`. -/
def parseChildEmails (n : Node) : List String :=
  parseChildEmailsLoop [] n.children

/-- The function `parseAnchorNode`. -/
def parseAnchorNode (n : Node) : URL :=
  { Href := getHref n, Content := getText n, Images := getImages n, Emails := getEmails n }

mutual
/-- The function `parseNodes`. -/
def parseNodes : Node → List URL
  | .mk t d a cs =>
    let urls : List URL :=
      if isAnchorNode (.mk t d a cs) then [] ++ [parseAnchorNode (.mk t d a cs)] else []
    urls ++ parseChildNodesLoop [] cs
/-- The loop of `parseChildNodes` over the children left to read. -/
def parseChildNodesLoop (urls : List URL) : List Node → List URL
  | [] => urls
  | c :: cs => parseChildNodesLoop (urls ++ parseNodes c) cs
end

/-- The function `parseChildNodes`. -/
def parseChildNodes (n : Node) : List URL :=
  parseChildNodesLoop [] n.children

/-! ## main.go: the cleaning loop of parseHandler -/

/-- A value stored in an output object (`interface{}` in Go): a string (`Href`,
`Content`), a list of images (`Images`) or a list of strings (`Emails`). -/
inductive Value where
  | str (s : String)
  | images (l : List Image)
  | strings (l : List String)
  deriving DecidableEq, Repr

/-- An output object, `map[string]interface{}`: the entries of the map, each key once,
in the order the keys were first stored. -/
abbrev Object := List (String × Value)

/-- The assignment `m[k] = v`. -/
def Object.set (m : Object) (k : String) (v : Value) : Object :=
  if m.any (fun e => e.1 = k) then m.map (fun e => if e.1 = k then (k, v) else e)
  else m ++ [(k, v)]

/-- The lookup `m[k]`, `none` when the key is absent. -/
def Object.get (m : Object) (k : String) : Option Value :=
  (m.find? (fun e => e.1 = k)).map Prod.snd

/-- The number of keys, `len(m)`. -/
def Object.len (m : Object) : Nat :=
  m.length

/-- The value `url.Href` has after lines 67-74 of main.go, for the `Scheme` and `Host` of
the parsed page address. -/
def resolveHref (scheme host href : String) : String :=
  if !HasPrefix href "http" then
    let domain := scheme ++ "://" ++ host
    if HasPrefix href "/" then domain ++ href else domain ++ "/" ++ href
  else href

/-- The map `cleanedURL` built for one record by the body of the loop of parseHandler. -/
def cleanedURL (scheme host : String) (url : URL) : Object :=
  let m : Object := []
  let m := if url.Href ≠ "" then m.set "Href" (Value.str (resolveHref scheme host url.Href)) else m
  let m := if url.Content ≠ "" then m.set "Content" (Value.str url.Content) else m
  let m := if url.Images.length > 0 then m.set "Images" (Value.images url.Images) else m
  let m := if url.Emails.length > 0 then m.set "Emails" (Value.strings url.Emails) else m
  m

/-- The loop of parseHandler over the records left to read, `cleanedURLs` being the
slice built so far. -/
def cleanedURLsLoop (scheme host : String) (cleanedURLs : List Object) :
    List URL → List Object
  | [] => cleanedURLs
  | url :: rest =>
    let m := cleanedURL scheme host url
    if m.len > 0 then cleanedURLsLoop scheme host (cleanedURLs ++ [m]) rest
    else cleanedURLsLoop scheme host cleanedURLs rest

/-- The slice `cleanedURLs` that parseHandler serialises, from the extracted records. -/
def cleanedURLs (scheme host : String) (urls : List URL) : List Object :=
  cleanedURLsLoop scheme host [] urls

/-- The objects parseHandler answers with for the parsed document `doc` fetched from an
address with the given scheme and host: extraction, then the cleaning loop. -/
def parseHandlerObjects (scheme host : String) (doc : Node) : List Object :=
  cleanedURLs scheme host (parseNodes doc)

/-! ## Specification-side notions -/

mutual
/-- The nodes of a tree in document pre-order: a node, then the nodes of its children's
subtrees, the children taken left to right. -/
def preorder : Node → List Node
  | .mk t d a cs => .mk t d a cs :: preorderList cs
/-- The nodes of a forest in document pre-order. -/
def preorderList : List Node → List Node
  | [] => []
  | c :: cs => preorder c ++ preorderList cs
end

mutual
/-- The raw text under a node, in the words of the specification: a text node contributes
its content, an element node the concatenation of what its children contribute, any other
node nothing; no trimming anywhere. -/
def rawText : Node → String
  | .mk .TextNode d _ _ => d
  | .mk .ElementNode _ _ cs => rawTextList cs
  | .mk _ _ _ _ => ""
/-- The raw text of a forest. -/
def rawTextList : List Node → String
  | [] => ""
  | c :: cs => rawText c ++ rawTextList cs
end

/-- A text node with the given content. -/
def textNode (s : String) : Node :=
  Node.mk NodeType.TextNode s [] []

/-- An element node with the given tag name, attributes and children. -/
def element (tag : String) (attrs : List Attribute) (cs : List Node) : Node :=
  Node.mk NodeType.ElementNode tag attrs cs

/-- An attribute without namespace. -/
def attr (k v : String) : Attribute :=
  { Namespace := "", Key := k, Val := v }

/-- The anchor `<a><b>foo </b>bar</a>`. -/
def nestedTextAnchor : Node :=
  element "a" [] [element "b" [] [textNode "foo "], textNode "bar"]

/-- The anchor `<a href="mailto:a@example.com">contact a@example.com</a>`. -/
def mailAnchor : Node :=
  element "a" [attr "href" "mailto:a@example.com"] [textNode "contact a@example.com"]

/-- The tree the HTML parser builds for
`<html><body><a href="/x"><img src="y.png" alt="Y"/>hello bob@test.com</a></body></html>`:
a document node over `html`, whose children are the implied empty `head` and `body`. -/
def endToEndDoc : Node :=
  Node.mk NodeType.DocumentNode "" []
    [element "html" []
      [element "head" [] [],
       element "body" []
        [element "a" [attr "href" "/x"]
          [element "img" [attr "src" "y.png", attr "alt" "Y"] [],
           textNode "hello bob@test.com"]]]]

/-- An anchor holding the same image twice, `<a><img src="p.png"><img src="p.png"></a>`. -/
def twoImagesAnchor : Node :=
  element "a" [] [element "img" [attr "src" "p.png"] [], element "img" [attr "src" "p.png"] []]

/-- A page whose body holds one empty anchor without attributes, `<body><a></a></body>`. -/
def emptyAnchorDoc : Node :=
  Node.mk NodeType.DocumentNode "" []
    [element "html" [] [element "head" [] [], element "body" [] [element "a" [] []]]]

/-- The node `t` nested in one element per tag of the list, outermost first, each element
without attributes and with this single child. -/
def wrapIn : List String → Node → Node
  | [], t => t
  | tag :: tags, t => element tag [] [wrapIn tags t]

/-- The anchor `<a href="mailto:bob@test.com"><b><i>bob@test.com</i></b></a>`. -/
def deepMailAnchor : Node :=
  element "a" [attr "href" "mailto:bob@test.com"] [wrapIn ["b", "i"] (textNode "bob@test.com")]

/-- The inner anchor of `outerAnchor`: `<a href="mailto:in@x.org"><img src="i.png">in</a>`. -/
def innerAnchor : Node :=
  element "a" [attr "href" "mailto:in@x.org"]
    [element "img" [attr "src" "i.png"] [], textNode "in"]

/-- An anchor holding another one: `<a href="/o">out <div>` inner anchor `</div> end</a>`. -/
def outerAnchor : Node :=
  element "a" [attr "href" "/o"]
    [textNode "out ", element "div" [] [innerAnchor], textNode " end"]

/-- An image element with two `src` and two `alt` attributes,
`<img src="first.png" src="second.png" alt="one" alt="two">`. -/
def twoSrcImage : Node :=
  element "img"
    [attr "src" "first.png", attr "src" "second.png", attr "alt" "one", attr "alt" "two"] []

/-- The anchor `<a href="mailto:"></a>`, a mail-link with nothing after the scheme. -/
def bareMailAnchor : Node :=
  element "a" [attr "href" "mailto:"] []

/-- The anchor `<a href="mailto:a@b.com?subject=hi"></a>`. -/
def subjectMailAnchor : Node :=
  element "a" [attr "href" "mailto:a@b.com?subject=hi"] []

/-- The characters a match of the email pattern can hold: those of the class of the local
part (which includes the classes of the domain and of the last label) and `@`. -/
def isCandidateChar (c : Char) : Bool :=
  isLocalChar c || c = '@'

/-- The anchor `<a href="/c"><span class="c">x@y.zz</span></a>`. -/
def spanMailAnchor : Node :=
  element "a" [attr "href" "/c"] [element "span" [attr "class" "c"] [textNode "x@y.zz"]]

/-- The anchor `<a><b><img>x@y.zz</b></a>`, its text node beside an image. -/
def imageBesideTextAnchor : Node :=
  element "a" [] [element "b" [] [element "img" [] [], textNode "x@y.zz"]]

/-! ## General lemmas -/

/-- Induction over node trees: a property holds of every node when it holds of a node
whose children all have it. -/
theorem Node.induct {P : Node → Prop}
    (h : ∀ t d a cs, (∀ c ∈ cs, P c) → P (Node.mk t d a cs)) : ∀ n, P n :=
  @Node.rec P (fun cs => ∀ c ∈ cs, P c) (fun t d a cs ih => h t d a cs ih)
    (fun c hc => by cases hc)
    (fun hd tl ih1 ih2 c hc => by
      rcases List.mem_cons.mp hc with rfl | hm
      · exact ih1
      · exact ih2 c hm)

theorem preorderList_eq (cs : List Node) : preorderList cs = cs.flatMap preorder := by
  induction cs with
  | nil => simp [preorderList]
  | cons c cs ih => simp [preorderList, ih]

theorem preorder_mk (t : NodeType) (d : String) (a : List Attribute) (cs : List Node) :
    preorder (Node.mk t d a cs) = Node.mk t d a cs :: cs.flatMap preorder := by
  rw [preorder, preorderList_eq]

/-- Two tree walks that agree on every child agree on the forest of children, after any
filter and map of the pre-order listing. -/
theorem flatMap_eq_filter_map_preorder {β : Type} (f : Node → List β) (p : Node → Bool)
    (g : Node → β) (cs : List Node)
    (ih : ∀ c ∈ cs, f c = ((preorder c).filter p).map g) :
    cs.flatMap f = ((cs.flatMap preorder).filter p).map g := by
  induction cs with
  | nil => simp
  | cons c cs ihc =>
    simp only [List.flatMap_cons, List.filter_append, List.map_append]
    rw [ih c (List.mem_cons_self _ _), ihc (fun x hx => ih x (List.mem_cons_of_mem _ hx))]

/-! ## Lemmas on the extractor -/

theorem isAnchorNode_iff (n : Node) :
    isAnchorNode n = decide (n.nodeType = NodeType.ElementNode ∧ n.Data = "a") := by
  simp [isAnchorNode, Bool.decide_and]

theorem parseChildNodesLoop_eq (urls : List URL) (cs : List Node) :
    parseChildNodesLoop urls cs = urls ++ cs.flatMap parseNodes := by
  induction cs generalizing urls with
  | nil => simp [parseChildNodesLoop]
  | cons c cs ih => simp [parseChildNodesLoop, ih]

theorem parseNodes_eq_filter_map (n : Node) :
    parseNodes n = ((preorder n).filter isAnchorNode).map parseAnchorNode := by
  induction n using Node.induct with
  | h t d a cs ih =>
    rw [parseNodes, preorder_mk, parseChildNodesLoop_eq,
      flatMap_eq_filter_map_preorder parseNodes isAnchorNode parseAnchorNode cs ih,
      List.filter_cons]
    by_cases hA : isAnchorNode (Node.mk t d a cs) = true <;> simp [hA]

theorem getHrefLoop_eq_find (attrs : List Attribute) :
    getHrefLoop attrs
      = ((attrs.find? (fun x => decide (x.Key = "href"))).map Attribute.Val).getD "" := by
  induction attrs with
  | nil => simp [getHrefLoop]
  | cons x xs ih =>
    by_cases hx : x.Key = "href"
    · simp [getHrefLoop, hx]
    · simp [getHrefLoop, hx, ih]

theorem getTextLoop_eq (text : String) (cs : List Node) :
    getTextLoop text cs = text ++ String.join (cs.map getText) := by
  induction cs generalizing text with
  | nil => simp [getTextLoop, String.join]
  | cons c cs ih =>
    rw [getTextLoop, ih]
    apply String.ext
    simp [String.data_join]

theorem getText_mk (t : NodeType) (d : String) (a : List Attribute) (cs : List Node) :
    getText (Node.mk t d a cs)
      = (match t with
        | NodeType.TextNode => TrimSpace d
        | NodeType.ElementNode => TrimSpace (String.join (cs.map getText))
        | _ => "") := by
  have he : TrimSpace "" = "" := by decide
  cases t <;> rw [getText] <;> first
    | exact he
    | rw [String.empty_append]
    | rw [getTextLoop_eq, String.empty_append]
    | (intro h; cases h)

theorem hasPrefix_iff (s p : String) : HasPrefix s p = true ↔ p.data <+: s.data :=
  List.isPrefixOf_iff_prefix

theorem parseEmailLinkLoop_eq_find (attrs : List Attribute) :
    parseEmailLinkLoop attrs
      = ((attrs.find? (fun x => decide (x.Key = "href" ∧ "mailto:".data <+: x.Val.data))).map
          (fun x => String.mk (x.Val.data.drop 7))).toList := by
  induction attrs with
  | nil => simp [parseEmailLinkLoop]
  | cons x xs ih =>
    by_cases hx : x.Key = "href" ∧ "mailto:".data <+: x.Val.data
    · have hp : HasPrefix x.Val "mailto:" = true := (hasPrefix_iff _ _).2 hx.2
      have hl : "mailto:".data.length = 7 := by decide
      simp [parseEmailLinkLoop, hx, hp, TrimPrefix, hl]
    · have hp : ¬ (x.Key = "href" ∧ HasPrefix x.Val "mailto:" = true) := by
        rw [hasPrefix_iff]; exact hx
      rw [parseEmailLinkLoop, List.find?_cons]
      simp only [Bool.and_eq_true, decide_eq_true_eq, hp, hx, if_false, decide_False]
      exact ih

theorem parseChildEmailsLoop_eq (emails : List String) (cs : List Node) :
    parseChildEmailsLoop emails cs = emails ++ cs.flatMap getEmails := by
  induction cs generalizing emails with
  | nil => simp [parseChildEmailsLoop]
  | cons c cs ih => simp [parseChildEmailsLoop, ih]

theorem parseChildImagesLoop_eq (images : List Image) (cs : List Node) :
    parseChildImagesLoop images cs = images ++ cs.flatMap getImages := by
  induction cs generalizing images with
  | nil => simp [parseChildImagesLoop]
  | cons c cs ih => simp [parseChildImagesLoop, ih]

theorem getImages_eq_filter_map (n : Node) :
    getImages n
      = ((preorder n).filter
          (fun m => decide (m.nodeType = NodeType.ElementNode ∧ m.Data = "img"))).map
        parseImage := by
  induction n using Node.induct with
  | h t d a cs ih =>
    rw [getImages, preorder_mk, parseChildImagesLoop_eq,
      flatMap_eq_filter_map_preorder getImages _ parseImage cs ih, List.filter_cons]
    by_cases hI : t = NodeType.ElementNode ∧ d = "img"
    · simp [hI, Node.nodeType, Node.Data]
    · have hI2 : ¬ (t = NodeType.ElementNode ∧ d = "img") := hI
      simp only [not_and] at hI
      simp [hI, hI2, Node.nodeType, Node.Data]

theorem parseImageLoop_src (img : Image) (attrs : List Attribute)
    (h : ∀ x ∈ attrs, x.Key ≠ "src") : (parseImageLoop img attrs).Src = img.Src := by
  induction attrs generalizing img with
  | nil => rfl
  | cons x xs ih =>
    have hx : x.Key ≠ "src" := h x (List.mem_cons_self _ _)
    have hxs : ∀ y ∈ xs, y.Key ≠ "src" := fun y hy => h y (List.mem_cons_of_mem _ hy)
    rw [parseImageLoop, if_neg hx]
    split
    · rw [ih _ hxs]
    · rw [ih _ hxs]

theorem parseImageLoop_alt (img : Image) (attrs : List Attribute)
    (h : ∀ x ∈ attrs, x.Key ≠ "alt") : (parseImageLoop img attrs).Alt = img.Alt := by
  induction attrs generalizing img with
  | nil => rfl
  | cons x xs ih =>
    have hx : x.Key ≠ "alt" := h x (List.mem_cons_self _ _)
    have hxs : ∀ y ∈ xs, y.Key ≠ "alt" := fun y hy => h y (List.mem_cons_of_mem _ hy)
    by_cases hs : x.Key = "src"
    · rw [parseImageLoop, if_pos hs, ih _ hxs]
    · rw [parseImageLoop, if_neg hs, if_neg hx, ih _ hxs]

/-! ## Lemmas on the cleaning loop -/

theorem resolveHref_eq (scheme host href : String) :
    resolveHref scheme host href
      = if "http".data <+: href.data then href
        else if "/".data <+: href.data then scheme ++ "://" ++ host ++ href
        else scheme ++ "://" ++ host ++ "/" ++ href := by
  unfold resolveHref
  by_cases h1 : "http".data <+: href.data
  · have h1b : HasPrefix href "http" = true := (hasPrefix_iff _ _).2 h1
    simp only [h1b, Bool.not_true, if_pos h1]
    rfl
  · have h1b : HasPrefix href "http" = false := by
      rw [← Bool.not_eq_true, hasPrefix_iff]; exact h1
    by_cases h2 : "/".data <+: href.data
    · have h2b : HasPrefix href "/" = true := (hasPrefix_iff _ _).2 h2
      simp only [h1b, h2b, Bool.not_false, if_true, if_neg h1, if_pos h2]
    · have h2b : HasPrefix href "/" = false := by
        rw [← Bool.not_eq_true, hasPrefix_iff]; exact h2
      simp only [h1b, h2b, Bool.not_false, if_true, if_neg h1, if_neg h2]
      rfl

/-- The map built for a record, entry by entry: each of the four keys is stored, in this
order, exactly when the field it comes from is not empty. -/
theorem cleanedURL_eq (scheme host : String) (url : URL) :
    cleanedURL scheme host url
      = (if url.Href ≠ "" then [("Href", Value.str (resolveHref scheme host url.Href))] else [])
        ++ (if url.Content ≠ "" then [("Content", Value.str url.Content)] else [])
        ++ (if url.Images ≠ [] then [("Images", Value.images url.Images)] else [])
        ++ (if url.Emails ≠ [] then [("Emails", Value.strings url.Emails)] else []) := by
  have hI : (url.Images.length > 0) = (url.Images ≠ []) := by
    simp [List.length_pos]
  have hE : (url.Emails.length > 0) = (url.Emails ≠ []) := by
    simp [List.length_pos]
  unfold cleanedURL
  simp only [hI, hE]
  by_cases h1 : url.Href = "" <;> by_cases h2 : url.Content = ""
    <;> by_cases h3 : url.Images = [] <;> by_cases h4 : url.Emails = []
    <;> simp [h1, h2, h3, h4, Object.set]

theorem cleanedURL_len_pos (scheme host : String) (url : URL) :
    (cleanedURL scheme host url).len > 0
      ↔ ¬ (url.Href = "" ∧ url.Content = "" ∧ url.Images = [] ∧ url.Emails = []) := by
  rw [cleanedURL_eq, Object.len]
  by_cases h1 : url.Href = "" <;> by_cases h2 : url.Content = ""
    <;> by_cases h3 : url.Images = [] <;> by_cases h4 : url.Emails = []
    <;> simp [h1, h2, h3, h4]

theorem cleanedURLsLoop_eq (scheme host : String) (acc : List Object) (urls : List URL) :
    cleanedURLsLoop scheme host acc urls
      = acc ++ (urls.filter (fun r =>
            !decide (r.Href = "" ∧ r.Content = "" ∧ r.Images = [] ∧ r.Emails = []))).map
          (cleanedURL scheme host) := by
  induction urls generalizing acc with
  | nil => simp [cleanedURLsLoop]
  | cons u us ih =>
    rw [cleanedURLsLoop]
    by_cases hu : u.Href = "" ∧ u.Content = "" ∧ u.Images = [] ∧ u.Emails = []
    · have hl : ¬ (cleanedURL scheme host u).len > 0 := by
        rw [cleanedURL_len_pos]; exact not_not.2 hu
      simp only [hl, if_false, ih, List.filter_cons, hu, and_self, decide_True, Bool.not_true]
      simp
    · have hl : (cleanedURL scheme host u).len > 0 := (cleanedURL_len_pos _ _ _).2 hu
      simp only [hl, if_true, ih, List.filter_cons, hu, decide_False, Bool.not_false,
        List.map_cons, List.append_assoc, List.singleton_append]

/-! ## Lemmas on the pre-order listing -/

theorem mem_preorder_self (n : Node) : n ∈ preorder n := by
  cases n with
  | mk t d a cs => rw [preorder_mk]; exact List.mem_cons_self _ _

theorem mem_preorder_of_child {t : NodeType} {d : String} {a : List Attribute}
    {cs : List Node} {c m : Node} (hc : c ∈ cs) (hm : m ∈ preorder c) :
    m ∈ preorder (Node.mk t d a cs) := by
  rw [preorder_mk]
  exact List.mem_cons_of_mem _ (List.mem_flatMap.2 ⟨c, hc, hm⟩)

theorem infix_flatMap_of_mem_list {α β : Type} (f : α → List β) {x : α} {xs : List α}
    (h : x ∈ xs) : f x <:+: xs.flatMap f := by
  induction xs with
  | nil => cases h
  | cons y ys ih =>
    rw [List.flatMap_cons]
    rcases List.mem_cons.mp h with rfl | hm
    · exact (List.prefix_append _ _).isInfix
    · exact (ih hm).trans (List.suffix_append _ _).isInfix

/-- The listing of a node of a tree is a contiguous part of the listing of the tree. -/
theorem preorder_infix_of_mem (n : Node) : ∀ m ∈ preorder n, preorder m <:+: preorder n := by
  induction n using Node.induct with
  | h t d a cs ih =>
    intro m hm
    rw [preorder_mk] at hm
    rcases List.mem_cons.mp hm with rfl | hm
    · exact List.infix_refl _
    · obtain ⟨c, hc, hmc⟩ := List.mem_flatMap.1 hm
      rw [preorder_mk]
      exact List.infix_cons (((ih c hc) m hmc).trans (infix_flatMap_of_mem_list preorder hc))

/-! ## Lemmas on trimming -/

theorem TrimSpace_empty : TrimSpace "" = "" := by decide

theorem join_eq_empty (l : List String) (h : ∀ s ∈ l, s = "") : String.join l = "" := by
  apply String.ext
  rw [String.data_join]
  induction l with
  | nil => rfl
  | cons x xs ih =>
    rw [List.map_cons, List.flatten_cons, h x (List.mem_cons_self _ _),
      ih (fun s hs => h s (List.mem_cons_of_mem _ hs))]
    rfl

/-- A subtree without text nodes has empty text. -/
theorem getText_eq_empty_of_no_text (n : Node)
    (h : ∀ m ∈ preorder n, m.nodeType ≠ NodeType.TextNode) : getText n = "" := by
  induction n using Node.induct with
  | h t d a cs ih =>
    rw [getText_mk]
    have ht : t ≠ NodeType.TextNode := h _ (mem_preorder_self _)
    cases t with
    | TextNode => exact absurd rfl ht
    | ElementNode =>
      show TrimSpace (String.join (cs.map getText)) = ""
      rw [join_eq_empty, TrimSpace_empty]
      intro s hs
      obtain ⟨c, hc, rfl⟩ := List.mem_map.1 hs
      exact ih c hc (fun m hm => h m (mem_preorder_of_child hc hm))
    | _ => rfl

theorem extractEmailsLoop_eq (validEmails : List String) (l : List String) :
    extractEmailsLoop validEmails l = validEmails ++ l.filter parseAddressOk := by
  induction l generalizing validEmails with
  | nil => simp [extractEmailsLoop]
  | cons e es ih =>
    rw [extractEmailsLoop]
    by_cases he : parseAddressOk e = true
    · simp [he, ih]
    · simp [he, ih]

theorem extractEmails_empty : extractEmails "" = [] := by decide

/-- A subtree without text nodes and without `href` attributes on its elements has no
emails. -/
theorem getEmails_eq_nil (n : Node)
    (h : ∀ m ∈ preorder n, m.nodeType ≠ NodeType.TextNode
      ∧ (m.nodeType = NodeType.ElementNode → ∀ x ∈ m.Attr, x.Key ≠ "href")) :
    getEmails n = [] := by
  induction n using Node.induct with
  | h t d a cs ih =>
    have htext : getText (Node.mk t d a cs) = "" :=
      getText_eq_empty_of_no_text _ (fun m hm => (h m hm).1)
    have hkids : cs.flatMap getEmails = [] := by
      rw [List.flatMap_eq_nil_iff]
      intro c hc
      exact ih c hc (fun m hm => h m (mem_preorder_of_child hc hm))
    have hlink : isAnchorNode (Node.mk t d a cs) = true →
        parseEmailLink (Node.mk t d a cs) = [] := by
      intro hA
      rw [isAnchorNode_iff] at hA
      have hel : t = NodeType.ElementNode := (of_decide_eq_true hA).1
      have hno := (h _ (mem_preorder_self _)).2 hel
      rw [parseEmailLink, parseEmailLinkLoop_eq_find]
      have : List.find? (fun x => decide (x.Key = "href" ∧ "mailto:".data <+: x.Val.data))
          (Node.mk t d a cs).Attr = none := by
        rw [List.find?_eq_none]
        intro x hx hp
        exact hno x hx (of_decide_eq_true hp).1
      rw [this]; rfl
    rw [getEmails, parseChildEmailsLoop_eq, htext, extractEmails_empty, hkids]
    by_cases hA : isAnchorNode (Node.mk t d a cs) = true
    · simp [hA, hlink hA]
    · simp [hA]

theorem TrimSpace_data (s : String) :
    (TrimSpace s).data = (s.data.dropWhile isSpace).rdropWhile isSpace := rfl

theorem dropWhile_head_not {p : Char → Bool} (l : List Char) {x : Char} {r : List Char}
    (h : l.dropWhile p = x :: r) : p x = false := by
  induction l with
  | nil => cases h
  | cons y ys ih =>
    rw [List.dropWhile_cons] at h
    by_cases hy : p y = true
    · rw [if_pos hy] at h
      exact ih h
    · rw [if_neg hy] at h
      injection h with h1 _
      rw [← h1]
      simpa using hy

/-- A trimmed list does not begin with white space. -/
theorem dropWhile_trimmed (l : List Char) :
    ((l.dropWhile isSpace).rdropWhile isSpace).dropWhile isSpace
      = (l.dropWhile isSpace).rdropWhile isSpace := by
  have hpre : (l.dropWhile isSpace).rdropWhile isSpace <+: l.dropWhile isSpace :=
    List.rdropWhile_prefix isSpace _
  obtain ⟨t, ht⟩ := hpre
  cases hr : (l.dropWhile isSpace).rdropWhile isSpace with
  | nil => rfl
  | cons x xs =>
    rw [hr, List.cons_append] at ht
    have hx : isSpace x = false := dropWhile_head_not l ht.symm
    rw [List.dropWhile_cons, hx]
    rfl

theorem TrimSpace_idem (s : String) : TrimSpace (TrimSpace s) = TrimSpace s := by
  apply String.ext
  rw [TrimSpace_data, TrimSpace_data, dropWhile_trimmed, List.rdropWhile_idempotent]

theorem TrimSpace_head_not_space (s : String) (c : Char)
    (h : (TrimSpace s).data.head? = some c) : isSpace c = false := by
  have hd : (TrimSpace s).data.dropWhile isSpace = (TrimSpace s).data := by
    rw [TrimSpace_data]; exact dropWhile_trimmed s.data
  cases hl : (TrimSpace s).data with
  | nil => rw [hl] at h; cases h
  | cons x xs =>
    rw [hl] at h
    injection h with h
    subst h
    exact dropWhile_head_not (TrimSpace s).data (hd.trans hl)

theorem TrimSpace_last_not_space (s : String) (c : Char)
    (h : (TrimSpace s).data.getLast? = some c) : isSpace c = false := by
  have hne : (TrimSpace s).data ≠ [] := by
    intro he; rw [he] at h; cases h
  have hr : (TrimSpace s).data.rdropWhile isSpace = (TrimSpace s).data := by
    rw [TrimSpace_data]; exact List.rdropWhile_idempotent isSpace _
  have hlast := (List.rdropWhile_eq_self_iff.1 hr) hne
  rw [List.getLast?_eq_getLast _ hne] at h
  cases h
  simpa using hlast

theorem TrimSpace_eq_empty_of_all_space (s : String)
    (h : ∀ c ∈ s.data, isSpace c = true) : TrimSpace s = "" := by
  apply String.ext
  rw [TrimSpace_data, (List.dropWhile_eq_nil_iff).2 h]
  rfl

/-- The text of any node is a trimmed string. -/
theorem getText_eq_TrimSpace (n : Node) : ∃ s, getText n = TrimSpace s := by
  cases n with
  | mk t d a cs =>
    rw [getText_mk]
    cases t
    case TextNode => exact ⟨d, rfl⟩
    case ElementNode => exact ⟨_, rfl⟩
    all_goals exact ⟨"", TrimSpace_empty.symm⟩

theorem TrimSpace_getText (n : Node) : TrimSpace (getText n) = getText n := by
  obtain ⟨s, hs⟩ := getText_eq_TrimSpace n
  rw [hs, TrimSpace_idem]

/-- A subtree whose text nodes hold white space only has empty text. -/
theorem getText_eq_empty_of_blank (n : Node)
    (h : ∀ m ∈ preorder n, m.nodeType = NodeType.TextNode → ∀ c ∈ m.Data.data, isSpace c = true) :
    getText n = "" := by
  induction n using Node.induct with
  | h t d a cs ih =>
    rw [getText_mk]
    cases t
    case TextNode =>
      exact TrimSpace_eq_empty_of_all_space d (h _ (mem_preorder_self _) rfl)
    case ElementNode =>
      show TrimSpace (String.join (cs.map getText)) = ""
      rw [join_eq_empty, TrimSpace_empty]
      intro s hs
      obtain ⟨c, hc, rfl⟩ := List.mem_map.1 hs
      exact ih c hc (fun m hm => h m (mem_preorder_of_child hc hm))
    all_goals rfl

theorem join_singleton (s : String) : String.join [s] = s := by
  apply String.ext
  simp [String.data_join]

/-- The email collection of a node, part by part. -/
theorem getEmails_mk (t : NodeType) (d : String) (a : List Attribute) (cs : List Node) :
    getEmails (Node.mk t d a cs)
      = (if isAnchorNode (Node.mk t d a cs) then parseEmailLink (Node.mk t d a cs) else [])
        ++ extractEmails (getText (Node.mk t d a cs)) ++ cs.flatMap getEmails := by
  rw [getEmails, parseChildEmailsLoop_eq, List.nil_append]

theorem getText_wrapIn (tags : List String) (d : String) :
    getText (wrapIn tags (textNode d)) = TrimSpace d := by
  induction tags with
  | nil => exact getText_mk _ _ _ _
  | cons g gs ih =>
    show getText (Node.mk NodeType.ElementNode g [] [wrapIn gs (textNode d)]) = _
    rw [getText_mk]
    show TrimSpace (String.join [getText (wrapIn gs (textNode d))]) = _
    rw [join_singleton, ih, TrimSpace_idem]

theorem getEmails_wrapIn (tags : List String) (d : String) :
    getEmails (wrapIn tags (textNode d))
      = (List.replicate (tags.length + 1) (extractEmails (TrimSpace d))).flatten := by
  induction tags with
  | nil =>
    show getEmails (Node.mk NodeType.TextNode d [] []) = _
    rw [getEmails_mk, getText_mk]
    simp [isAnchorNode, Node.nodeType]
  | cons g gs ih =>
    have ht := getText_wrapIn (g :: gs) d
    have hl : parseEmailLink (Node.mk NodeType.ElementNode g [] [wrapIn gs (textNode d)]) = [] :=
      rfl
    change getText (Node.mk NodeType.ElementNode g [] [wrapIn gs (textNode d)]) = _ at ht
    show getEmails (Node.mk NodeType.ElementNode g [] [wrapIn gs (textNode d)]) = _
    rw [getEmails_mk, ht, hl, List.flatMap_cons, List.flatMap_nil, List.append_nil, ih,
      List.length_cons, List.replicate_succ (n := gs.length + 1), List.flatten_cons]
    simp

/-! ## Lemmas on nested content -/

theorem getImages_infix_of_mem (n m : Node) (h : m ∈ preorder n) :
    getImages m <:+: getImages n := by
  rw [getImages_eq_filter_map, getImages_eq_filter_map]
  exact ((preorder_infix_of_mem n m h).filter _).map _

theorem parseNodes_infix_of_mem (n m : Node) (h : m ∈ preorder n) :
    parseNodes m <:+: parseNodes n := by
  rw [parseNodes_eq_filter_map, parseNodes_eq_filter_map]
  exact ((preorder_infix_of_mem n m h).filter _).map _

theorem getEmails_infix_of_mem (n : Node) : ∀ m ∈ preorder n, getEmails m <:+: getEmails n := by
  induction n using Node.induct with
  | h t d a cs ih =>
    intro m hm
    rw [preorder_mk] at hm
    rcases List.mem_cons.mp hm with rfl | hm
    · exact List.infix_refl _
    · obtain ⟨c, hc, hmc⟩ := List.mem_flatMap.1 hm
      rw [getEmails_mk]
      exact ((ih c hc m hmc).trans (infix_flatMap_of_mem_list getEmails hc)).trans
        (List.suffix_append _ _).isInfix

/-- A part of a list that does not begin with a dropped character is still a part of the
list once the leading dropped characters are removed. -/
theorem infix_dropWhile {p : Char → Bool} (u : List Char) (hu : u.dropWhile p = u)
    (l : List Char) (h : u <:+: l) : u <:+: l.dropWhile p := by
  cases u with
  | nil => exact List.nil_infix
  | cons x u1 =>
    have hx : p x = false := dropWhile_head_not (x :: u1) hu
    obtain ⟨l1, l2, hl⟩ := h
    subst hl
    induction l1 with
    | nil =>
      rw [List.nil_append, List.cons_append, List.dropWhile_cons, hx]
      exact ⟨[], l2, rfl⟩
    | cons y ys ih =>
      rw [List.cons_append, List.cons_append, List.dropWhile_cons]
      by_cases hy : p y = true
      · rw [if_pos hy]; exact ih
      · rw [if_neg hy]; exact ⟨y :: ys, l2, rfl⟩

theorem infix_rdropWhile {p : Char → Bool} (u : List Char) (hu : u.rdropWhile p = u)
    (l : List Char) (h : u <:+: l) : u <:+: l.rdropWhile p := by
  have hu2 : u.reverse.dropWhile p = u.reverse := by
    have := congrArg List.reverse hu
    rwa [List.rdropWhile, List.reverse_reverse] at this
  have h2 : u.reverse <:+: l.reverse.dropWhile p :=
    infix_dropWhile u.reverse hu2 l.reverse (List.reverse_infix.2 h)
  have h3 := List.reverse_infix.2 h2
  rwa [List.reverse_reverse] at h3

/-- A trimmed string found in a string is still found in it once the string is trimmed. -/
theorem infix_TrimSpace (u s : String) (hu : TrimSpace u = u) (h : u.data <:+: s.data) :
    u.data <:+: (TrimSpace s).data := by
  have hd : u.data.dropWhile isSpace = u.data := by
    have := dropWhile_trimmed u.data
    rwa [← TrimSpace_data, hu] at this
  have hr : u.data.rdropWhile isSpace = u.data := by
    have := List.rdropWhile_idempotent isSpace (u.data.dropWhile isSpace)
    rwa [← TrimSpace_data, hu] at this
  rw [TrimSpace_data]
  exact infix_rdropWhile _ hr _ (infix_dropWhile _ hd _ h)

theorem getText_infix_of_mem (n : Node)
    (helems : ∀ m ∈ preorder n, m.children ≠ [] → m.nodeType = NodeType.ElementNode) :
    ∀ m ∈ preorder n, (getText m).data <:+: (getText n).data := by
  induction n using Node.induct with
  | h t d a cs ih =>
    intro m hm
    rw [preorder_mk] at hm
    rcases List.mem_cons.mp hm with rfl | hm
    · exact List.infix_refl _
    · obtain ⟨c, hc, hmc⟩ := List.mem_flatMap.1 hm
      have hne : cs ≠ [] := List.ne_nil_of_mem hc
      have ht : t = NodeType.ElementNode := helems _ (mem_preorder_self _) hne
      subst ht
      have h1 : (getText m).data <:+: (getText c).data :=
        ih c hc (fun x hx => helems x (mem_preorder_of_child hc hx)) m hmc
      have h2 : (getText c).data <:+: (String.join (cs.map getText)).data := by
        rw [String.data_join]
        exact List.infix_of_mem_flatten
          (List.mem_map.2 ⟨getText c, List.mem_map.2 ⟨c, hc, rfl⟩, rfl⟩)
      have h3 := infix_TrimSpace (getText c) _ (TrimSpace_getText c) h2
      rw [getText_mk]
      exact h1.trans h3

theorem parseImageLoop_src_last (img : Image) (attrs : List Attribute) :
    (parseImageLoop img attrs).Src
      = ((attrs.reverse.find? (fun x => decide (x.Key = "src"))).map Attribute.Val).getD
          img.Src := by
  induction attrs generalizing img with
  | nil => rfl
  | cons x xs ih =>
    rw [parseImageLoop, List.reverse_cons, List.find?_append]
    by_cases hs : x.Key = "src"
    · rw [if_pos hs, ih]
      cases List.find? (fun x => decide (x.Key = "src")) xs.reverse <;> simp [hs]
    · rw [if_neg hs]
      have hf : List.find? (fun x => decide (x.Key = "src")) [x] = none := by simp [hs]
      rw [hf]
      split <;> rw [ih] <;> simp

theorem parseImageLoop_alt_last (img : Image) (attrs : List Attribute) :
    (parseImageLoop img attrs).Alt
      = ((attrs.reverse.find?
            (fun x => decide (x.Key = "alt" ∧ x.Key ≠ "src"))).map Attribute.Val).getD
          img.Alt := by
  induction attrs generalizing img with
  | nil => rfl
  | cons x xs ih =>
    rw [parseImageLoop, List.reverse_cons, List.find?_append]
    by_cases hs : x.Key = "src"
    · have hf : List.find? (fun x => decide (x.Key = "alt" ∧ x.Key ≠ "src")) [x] = none := by
        simp [hs]
      rw [if_pos hs, ih, hf]
      simp
    · rw [if_neg hs]
      by_cases ha : x.Key = "alt"
      · rw [if_pos ha, ih]
        cases List.find? (fun x => decide (x.Key = "alt" ∧ x.Key ≠ "src")) xs.reverse
          <;> simp [ha]
      · have hf : List.find? (fun x => decide (x.Key = "alt" ∧ x.Key ≠ "src")) [x] = none := by
          simp [ha]
        rw [if_neg ha, ih, hf]
        simp

/-! ## Lemmas on resolution -/

theorem cleanedURL_get_Href (scheme host : String) (url : URL) (h : url.Href ≠ "") :
    (cleanedURL scheme host url).get "Href"
      = some (Value.str (resolveHref scheme host url.Href)) := by
  rw [cleanedURL_eq]
  simp [h, Object.get]

theorem http_prefix_append (s t : String) (h : "http".data <+: s.data) :
    "http".data <+: (s ++ t).data := by
  rw [String.data_append]
  exact h.trans (List.prefix_append _ _)

/-- A scheme that does not begin with `http` followed by a colon does not begin with
`http` either. -/
theorem not_http_prefix_colon (sc rest : List Char) (h : ¬ "http".data <+: sc) :
    ¬ "http".data <+: sc ++ ':' :: rest := by
  have hh : "http".data = ['h', 't', 't', 'p'] := rfl
  rw [hh] at h ⊢
  rcases sc with _ | ⟨c1, _ | ⟨c2, _ | ⟨c3, _ | ⟨c4, sc⟩⟩⟩⟩
  · simp [List.cons_prefix_cons]
  · simp [List.cons_prefix_cons]
  · simp [List.cons_prefix_cons]
  · simp [List.cons_prefix_cons]
  · intro hp
    apply h
    simp only [List.cons_append, List.cons_prefix_cons] at hp ⊢
    exact ⟨hp.1, hp.2.1, hp.2.2.1, hp.2.2.2.1, List.nil_prefix⟩

theorem resolveHref_http_prefix (scheme host ref : String) (hs : "http".data <+: scheme.data) :
    "http".data <+: (resolveHref scheme host ref).data := by
  rw [resolveHref_eq]
  by_cases h1 : "http".data <+: ref.data
  · rw [if_pos h1]; exact h1
  · rw [if_neg h1]
    by_cases h2 : "/".data <+: ref.data
    · rw [if_pos h2]
      exact http_prefix_append _ _ (http_prefix_append _ _ (http_prefix_append _ _ hs))
    · rw [if_neg h2]
      exact http_prefix_append _ _ (http_prefix_append _ _
        (http_prefix_append _ _ (http_prefix_append _ _ hs)))

theorem resolveHref_of_http (scheme host ref : String) (h : "http".data <+: ref.data) :
    resolveHref scheme host ref = ref := by
  rw [resolveHref_eq, if_pos h]

theorem resolveHref_ne_empty (scheme host ref : String) (h : ref ≠ "") :
    resolveHref scheme host ref ≠ "" := by
  have hlen : ∀ s : String, s ≠ "" → 0 < s.data.length := by
    intro s hs
    cases hd : s.data with
    | nil => exact absurd (String.ext hd) hs
    | cons x xs => simp
  have hpos : 0 < (resolveHref scheme host ref).data.length := by
    rw [resolveHref_eq]
    split
    · exact hlen ref h
    · split
      · simp only [String.data_append, List.length_append]
        have := hlen ref h
        omega
      · simp only [String.data_append, List.length_append]
        have := hlen ref h
        omega
  intro he
  rw [he] at hpos
  exact absurd hpos (by decide)

/-- With a scheme that does not begin with `http`, resolving the reference `x` twice does
not give what resolving it once gives. -/
theorem resolveHref_twice_ne (scheme host : String) (hs : ¬ "http".data <+: scheme.data) :
    resolveHref scheme host (resolveHref scheme host "x") ≠ resolveHref scheme host "x" := by
  have h1 : resolveHref scheme host "x" = scheme ++ "://" ++ host ++ "/" ++ "x" := by
    rw [resolveHref_eq, if_neg (by decide), if_neg (by decide)]
  have hn : ¬ "http".data <+: (scheme ++ "://" ++ host ++ "/" ++ "x").data := by
    have : (scheme ++ "://" ++ host ++ "/" ++ "x").data
        = scheme.data ++ ':' :: ('/' :: '/' :: (host.data ++ "/".data ++ "x".data)) := by
      simp [String.data_append]
    rw [this]
    exact not_http_prefix_colon _ _ hs
  rw [h1, resolveHref_eq, if_neg hn]
  intro he
  have hl := congrArg (fun s : String => s.data.length) he
  have e3 : "://".data.length = 3 := by decide
  split at hl
  · simp only [String.data_append, List.length_append, e3] at hl
    omega
  · simp only [String.data_append, List.length_append, e3] at hl
    omega

theorem mailto_not_http (s : String) (h : "mailto:".data <+: s.data) :
    ¬ "http".data <+: s.data ∧ ¬ "/".data <+: s.data := by
  have hm : "mailto:".data = ['m', 'a', 'i', 'l', 't', 'o', ':'] := rfl
  have hh : "http".data = ['h', 't', 't', 'p'] := rfl
  have hsl : "/".data = ['/'] := rfl
  rw [hm] at h
  rw [hh, hsl]
  cases hd : s.data with
  | nil => rw [hd] at h; simp at h
  | cons c cs =>
    rw [hd, List.cons_prefix_cons] at h
    rw [List.cons_prefix_cons, List.cons_prefix_cons, ← h.1]
    exact ⟨fun hc => absurd hc.1 (by decide), fun hc => absurd hc.1 (by decide)⟩

theorem parseEmailLink_of_find (a : Node) (x : Attribute) (s : String)
    (hfind : a.Attr.find? (fun y => decide (y.Key = "href" ∧ "mailto:".data <+: y.Val.data))
      = some x)
    (hval : x.Val = "mailto:" ++ s) : parseEmailLink a = [s] := by
  rw [parseEmailLink, parseEmailLinkLoop_eq_find, hfind]
  show [String.mk (List.drop 7 x.Val.data)] = [s]
  rw [hval]
  rfl

/-! ## Lemmas on the pattern scan -/

theorem firstDown_some {α : Type} (lo : Nat) (f : Nat → Option α) (n : Nat) (r : α)
    (h : firstDown lo f n = some r) : ∃ k, lo ≤ k ∧ k ≤ n ∧ f k = some r := by
  induction n with
  | zero =>
    rw [firstDown] at h
    by_cases h0 : lo = 0
    · rw [if_pos h0] at h
      exact ⟨0, by omega, le_refl _, h⟩
    · rw [if_neg h0] at h
      cases h
  | succ k ih =>
    rw [firstDown] at h
    by_cases hlt : k + 1 < lo
    · rw [if_pos hlt] at h
      cases h
    · rw [if_neg hlt] at h
      cases hf : f (k + 1) with
      | some r2 =>
        rw [hf] at h
        injection h with h
        subst h
        exact ⟨k + 1, by omega, le_refl _, hf⟩
      | none =>
        rw [hf] at h
        obtain ⟨j, h1, h2, h3⟩ := ih h
        exact ⟨j, h1, by omega, h3⟩

theorem take_within_takeWhile (p : Char → Bool) (l : List Char) (k : Nat)
    (hk : k ≤ (l.takeWhile p).length) : ∀ c ∈ l.take k, p c = true := by
  induction l generalizing k with
  | nil => intro c hc; simp at hc
  | cons x xs ih =>
    cases k with
    | zero => intro c hc; simp at hc
    | succ k =>
      rw [List.takeWhile_cons] at hk
      by_cases hx : p x = true
      · rw [if_pos hx, List.length_cons] at hk
        intro c hc
        rw [List.take_succ_cons] at hc
        rcases List.mem_cons.mp hc with rfl | hm
        · exact hx
        · exact ih k (by omega) c hm
      · rw [if_neg hx] at hk
        simp at hk

theorem take_split (s s2 : List Char) (i m : Nat) (x : Char) (h : s.drop i = x :: s2) :
    s.take (i + 1 + m) = s.take i ++ x :: s2.take m := by
  rw [Nat.add_assoc, List.take_add, h, Nat.add_comm 1 m, List.take_succ_cons]

theorem isLocalChar_of_isDomainChar (c : Char) (h : isDomainChar c = true) :
    isLocalChar c = true := by
  simp only [isDomainChar, isLocalChar, Bool.or_eq_true] at h ⊢
  tauto

theorem isLocalChar_of_isLetter (c : Char) (h : isLetter c = true) :
    isLocalChar c = true := by
  simp only [isLetter, isLocalChar, isAlnum, Bool.or_eq_true] at h ⊢
  tauto

theorem matchTld_chars (s3 : List Char) (k : Nat) (h : matchTld s3 = some k) :
    ∀ c ∈ s3.take k, isCandidateChar c = true := by
  obtain ⟨j, -, hj, hf⟩ := firstDown_some _ _ _ _ h
  have hjk : j = k := by
    by_cases hw : wordBoundary ((s3.take j).getLast?) ((s3.drop j).head?) = true
    · simp only [hw, if_true] at hf
      injection hf
    · simp only [hw] at hf
      cases hf
  subst hjk
  intro c hc
  have := isLocalChar_of_isLetter c (take_within_takeWhile isLetter s3 j hj c hc)
  simp [isCandidateChar, this]

theorem matchDomain_chars (s2 : List Char) (n : Nat) (h : matchDomain s2 = some n) :
    ∀ c ∈ s2.take n, isCandidateChar c = true := by
  obtain ⟨j, -, hj, hf⟩ := firstDown_some _ _ _ _ h
  cases hd : s2.drop j with
  | nil => simp only [hd] at hf; cases hf
  | cons x s3 =>
    by_cases hx : x = '.'
    · subst hx
      simp only [hd] at hf
      cases hk : matchTld s3 with
      | none => rw [hk] at hf; cases hf
      | some k =>
        rw [hk] at hf
        injection hf with hf
        subst hf
        rw [take_split s2 s3 j k '.' hd]
        intro c hc
        rcases List.mem_append.mp hc with h1 | h1
        · have := isLocalChar_of_isDomainChar c (take_within_takeWhile isDomainChar s2 j hj c h1)
          simp [isCandidateChar, this]
        · rcases List.mem_cons.mp h1 with rfl | h2
          · decide
          · exact matchTld_chars s3 k hk c h2
    · have hn : (match x :: s3 with
          | '.' :: s3 => (matchTld s3).map (fun k => j + 1 + k)
          | _ => none) = none := by
        split
        · rename_i heq
          injection heq with h1 _
          exact absurd h1 hx
        · rfl
      simp only [hd] at hf
      rw [hn] at hf
      cases hf

theorem matchHere_chars (before : Option Char) (s : List Char) (n : Nat)
    (h : matchHere before s = some n) : ∀ c ∈ s.take n, isCandidateChar c = true := by
  unfold matchHere at h
  by_cases hw : wordBoundary before s.head? = true
  · rw [if_pos hw] at h
    obtain ⟨i, -, hi, hf⟩ := firstDown_some _ _ _ _ h
    cases hd : s.drop i with
    | nil => simp only [hd] at hf; cases hf
    | cons x s2 =>
      by_cases hx : x = '@'
      · subst hx
        simp only [hd] at hf
        cases hk : matchDomain s2 with
        | none => rw [hk] at hf; cases hf
        | some j =>
          rw [hk] at hf
          injection hf with hf
          subst hf
          rw [take_split s s2 i j '@' hd]
          intro c hc
          rcases List.mem_append.mp hc with h1 | h1
          · have := take_within_takeWhile isLocalChar s i hi c h1
            simp [isCandidateChar, this]
          · rcases List.mem_cons.mp h1 with rfl | h2
            · decide
            · exact matchDomain_chars s2 j hk c h2
      · have hn : (match x :: s2 with
            | '@' :: s2 => (matchDomain s2).map (fun j => i + 1 + j)
            | _ => none) = none := by
          split
          · rename_i heq
            injection heq with h1 _
            exact absurd h1 hx
          · rfl
        simp only [hd] at hf
        rw [hn] at hf
        cases hf
  · rw [if_neg hw] at h
    cases h

theorem findAllAux_chars (l : List Char) : ∀ (before : Option Char) (skip : Nat),
    ∀ m ∈ findAllAux before skip l, ∀ c ∈ m.data, isCandidateChar c = true := by
  induction l with
  | nil => intro before skip m hm; simp [findAllAux] at hm
  | cons x xs ih =>
    intro before skip m hm
    cases skip with
    | succ k =>
      rw [findAllAux] at hm
      exact ih _ _ m hm
    | zero =>
      rw [findAllAux] at hm
      cases hk : matchHere before (x :: xs) with
      | none =>
        rw [hk] at hm
        exact ih _ _ m hm
      | some len =>
        rw [hk] at hm
        rcases List.mem_cons.mp hm with rfl | hm2
        · exact matchHere_chars before (x :: xs) len hk
        · exact ih _ _ m hm2

/-- Along a path of nodes, each a child of the one before, that all have the same text,
the emails of that text are collected once for every node of the path, after the mail-link
entry of the first node. -/
theorem getEmails_path_sublist (T : String) (path : List Node) : ∀ n : Node,
    List.Chain' (fun p c => c ∈ p.children) (n :: path) →
    (∀ m ∈ n :: path, getText m = T) →
    List.Sublist
      ((if isAnchorNode n then parseEmailLink n else [])
        ++ (List.replicate (path.length + 1) (extractEmails T)).flatten)
      (getEmails n) := by
  induction path with
  | nil =>
    intro n _ htext
    cases n with
    | mk t d a cs =>
      rw [getEmails_mk, htext _ (List.mem_cons_self _ _)]
      simp only [List.length_nil, Nat.zero_add, List.replicate_one, List.flatten_cons,
        List.flatten_nil, List.append_nil]
      exact List.sublist_append_left _ _
  | cons c rest ih =>
    intro n hchain htext
    have hc := List.chain'_cons.1 hchain
    have hsub := ih c hc.2 (fun m hm => htext m (List.mem_cons_of_mem _ hm))
    have hdrop : List.Sublist (List.replicate (rest.length + 1) (extractEmails T)).flatten
        (getEmails c) :=
      (List.sublist_append_right _ _).trans hsub
    cases n with
    | mk t d a cs =>
      have hmem : c ∈ cs := hc.1
      have hkids : List.Sublist (List.replicate (rest.length + 1) (extractEmails T)).flatten
          (cs.flatMap getEmails) :=
        hdrop.trans (infix_flatMap_of_mem_list getEmails hmem).sublist
      rw [getEmails_mk, htext _ (List.mem_cons_self _ _), List.length_cons,
        List.replicate_succ (n := rest.length + 1), List.flatten_cons, List.append_assoc]
      exact List.Sublist.append (List.Sublist.refl _)
        (List.Sublist.append (List.Sublist.refl _) hkids)

/-! ## Claims -/

/-- C1: `parseNodes` returns exactly one record per element node with tag name `a`, in
document pre-order, and none for any other node; the target of the record of an anchor is
the value of its first attribute with key `href`, or the empty string when it has none. -/
theorem parseNodes_one_record_per_anchor (n : Node) :
    parseNodes n
        = ((preorder n).filter
            (fun m => decide (m.nodeType = NodeType.ElementNode ∧ m.Data = "a"))).map
          parseAnchorNode
      ∧ ∀ a : Node, (parseAnchorNode a).Href
          = ((a.Attr.find? (fun x => decide (x.Key = "href"))).map Attribute.Val).getD "" := by
  refine ⟨?_, fun a => getHrefLoop_eq_find a.Attr⟩
  rw [parseNodes_eq_filter_map]
  congr 2
  funext m
  exact isAnchorNode_iff m

/-- C2, as stated, fails: for `<a><b>foo </b>bar</a>` the record's text is `foobar`, while
the raw text of the text nodes under the anchor, trimmed once at the end, is `foo bar`. -/
theorem getText_not_trimmed_once :
    (parseAnchorNode nestedTextAnchor).Content = "foobar"
      ∧ TrimSpace (rawText nestedTextAnchor) = "foo bar"
      ∧ (parseAnchorNode nestedTextAnchor).Content ≠ TrimSpace (rawText nestedTextAnchor) := by
  decide

/-- C2, amended: the record's text of an anchor is the concatenation, in document order, of
the texts of its children, trimmed; where the text of any node is: its content trimmed for a
text node, the trimmed concatenation of its children's texts for an element node, and the
empty string for any other node. Trimming takes place at every node, not once. -/
theorem getText_trimmed_at_every_node (a : Node)
    (ha : a.nodeType = NodeType.ElementNode ∧ a.Data = "a") :
    (parseAnchorNode a).Content = TrimSpace (String.join (a.children.map getText))
      ∧ ∀ n : Node, getText n
          = (match n.nodeType with
            | NodeType.TextNode => TrimSpace n.Data
            | NodeType.ElementNode => TrimSpace (String.join (n.children.map getText))
            | _ => "") := by
  have hn : ∀ n : Node, getText n
      = (match n.nodeType with
        | NodeType.TextNode => TrimSpace n.Data
        | NodeType.ElementNode => TrimSpace (String.join (n.children.map getText))
        | _ => "") := by
    intro n
    cases n with
    | mk t d as cs => exact getText_mk t d as cs
  refine ⟨?_, hn⟩
  show getText a = _
  rw [hn a, ha.1]

/-- C2, amended, at `<a><b>foo </b>bar</a>`: the text is `foobar`. -/
theorem getText_trimmed_at_every_node_witness :
    (parseAnchorNode nestedTextAnchor).Content = "foobar" := by
  have h := (getText_trimmed_at_every_node nestedTextAnchor (by decide)).1
  rw [h]
  decide

/-- C3, as stated, fails: the emails of `<a href="mailto:a@example.com">contact
a@example.com</a>` are not the two-element list. -/
theorem mailAnchor_emails_not_two :
    (parseAnchorNode mailAnchor).Emails ≠ ["a@example.com", "a@example.com"] := by
  decide

/-- C3, amended: the emails of `<a href="mailto:a@example.com">contact a@example.com</a>`
are exactly three entries: the mail-link entry, the match in the anchor's own text, and the
match found again in the text-node child. -/
theorem mailAnchor_emails_three :
    (parseAnchorNode mailAnchor).Emails
        = ["a@example.com", "a@example.com", "a@example.com"]
      ∧ parseEmailLink mailAnchor = ["a@example.com"]
      ∧ extractEmails (getText mailAnchor) = ["a@example.com"]
      ∧ parseChildEmails mailAnchor = ["a@example.com"] := by
  decide

/-- C4, as stated, fails: the single output object of the end-to-end page does not hold
`Emails` equal to the one-element list. -/
theorem endToEnd_emails_not_single :
    ¬ ∃ o : Object, parseHandlerObjects "http" "site.test" endToEndDoc = [o]
        ∧ o.get "Href" = some (Value.str "http://site.test/x")
        ∧ o.get "Content" = some (Value.str "hello bob@test.com")
        ∧ o.get "Images" = some (Value.images [{ Src := "y.png", Alt := "Y" }])
        ∧ o.get "Emails" = some (Value.strings ["bob@test.com"]) := by
  rintro ⟨o, ho, -, -, -, he⟩
  have hv : parseHandlerObjects "http" "site.test" endToEndDoc
      = [[("Href", Value.str "http://site.test/x"),
          ("Content", Value.str "hello bob@test.com"),
          ("Images", Value.images [{ Src := "y.png", Alt := "Y" }]),
          ("Emails", Value.strings ["bob@test.com", "bob@test.com"])]] := by
    decide
  rw [hv] at ho
  cases ho
  revert he
  decide

/-- C4, amended: the end-to-end page yields exactly one output object, with `Href`
`http://site.test/x`, `Content` `hello bob@test.com`, `Images` the one image, and `Emails`
holding `bob@test.com` twice; it has these four keys only. -/
theorem endToEnd_one_object :
    ∃ o : Object, parseHandlerObjects "http" "site.test" endToEndDoc = [o]
      ∧ o.get "Href" = some (Value.str "http://site.test/x")
      ∧ o.get "Content" = some (Value.str "hello bob@test.com")
      ∧ o.get "Images" = some (Value.images [{ Src := "y.png", Alt := "Y" }])
      ∧ o.get "Emails" = some (Value.strings ["bob@test.com", "bob@test.com"])
      ∧ o.map Prod.fst = ["Href", "Content", "Images", "Emails"] :=
  ⟨[("Href", Value.str "http://site.test/x"),
    ("Content", Value.str "hello bob@test.com"),
    ("Images", Value.images [{ Src := "y.png", Alt := "Y" }]),
    ("Emails", Value.strings ["bob@test.com", "bob@test.com"])], by decide⟩

/-- C5: the email collection of a node is, in this order, the mail-link entry of the node
when it is an anchor (the value, without its first seven characters `mailto:`, of the first
attribute with key `href` and a value beginning with `mailto:`; nothing otherwise), the
emails found in the text of the node, and the collections of its children from left to
right by the same rule; the record's emails are this collection for the anchor. -/
theorem getEmails_three_parts (n : Node) :
    getEmails n
        = (if n.nodeType = NodeType.ElementNode ∧ n.Data = "a" then
            ((n.Attr.find?
                (fun x => decide (x.Key = "href" ∧ "mailto:".data <+: x.Val.data))).map
              (fun x => String.mk (x.Val.data.drop 7))).toList
           else [])
          ++ extractEmails (getText n)
          ++ n.children.flatMap getEmails
      ∧ (parseAnchorNode n).Emails = getEmails n := by
  refine ⟨?_, rfl⟩
  cases n with
  | mk t d a cs =>
    rw [getEmails, parseChildEmailsLoop_eq, isAnchorNode_iff]
    simp only [parseEmailLink, parseEmailLinkLoop_eq_find, Node.nodeType, Node.Data,
      Node.Attr, Node.children, decide_eq_true_eq, List.nil_append]

/-- C6: the record's images are one `Image` per element node with tag name `img` in the
subtree, in document pre-order, none dropped or merged (as many entries as there are such
nodes; the same image twice gives two equal entries); an `img` without attribute `src`
(respectively `alt`) gives an entry with empty `Src` (respectively `Alt`). -/
theorem getImages_one_per_img (a : Node) :
    (parseAnchorNode a).Images
        = ((preorder a).filter
            (fun m => decide (m.nodeType = NodeType.ElementNode ∧ m.Data = "img"))).map
          parseImage
      ∧ (parseAnchorNode a).Images.length
          = (preorder a).countP
              (fun m => decide (m.nodeType = NodeType.ElementNode ∧ m.Data = "img"))
      ∧ (∀ m : Node, (∀ x ∈ m.Attr, x.Key ≠ "src") → (parseImage m).Src = "")
      ∧ (∀ m : Node, (∀ x ∈ m.Attr, x.Key ≠ "alt") → (parseImage m).Alt = "")
      ∧ (parseAnchorNode twoImagesAnchor).Images
          = [{ Src := "p.png", Alt := "" }, { Src := "p.png", Alt := "" }] := by
  have h : (parseAnchorNode a).Images = getImages a := rfl
  refine ⟨?_, ?_, ?_, ?_, by decide⟩
  · rw [h, getImages_eq_filter_map]
  · rw [h, getImages_eq_filter_map, List.length_map, List.countP_eq_length_filter]
  · intro m hm
    exact parseImageLoop_src _ m.Attr hm
  · intro m hm
    exact parseImageLoop_alt _ m.Attr hm

/-- C7: for a non-empty reference, the `Href` stored in the output object is the reference
itself when it begins with `http` (also for `httpfoo`), and otherwise the origin
`scheme://host` followed by the reference when it begins with `/`, by `/` and the reference
when it does not; with base `http://example.com/page`, `/about` and `about` both give
`http://example.com/about` and `http://other.com/x` stays as it is. -/
theorem resolveHref_policy (scheme host ref : String) (h : ref ≠ "") :
    (∀ url : URL, url.Href = ref →
        (cleanedURL scheme host url).get "Href" = some (Value.str (resolveHref scheme host ref)))
      ∧ ("http".data <+: ref.data → resolveHref scheme host ref = ref)
      ∧ (¬ "http".data <+: ref.data → "/".data <+: ref.data →
          resolveHref scheme host ref = scheme ++ "://" ++ host ++ ref)
      ∧ (¬ "http".data <+: ref.data → ¬ "/".data <+: ref.data →
          resolveHref scheme host ref = scheme ++ "://" ++ host ++ "/" ++ ref)
      ∧ resolveHref "http" "example.com" "/about" = "http://example.com/about"
      ∧ resolveHref "http" "example.com" "about" = "http://example.com/about"
      ∧ resolveHref "http" "example.com" "http://other.com/x" = "http://other.com/x"
      ∧ resolveHref "http" "example.com" "httpfoo" = "httpfoo" := by
  refine ⟨?_, ?_, ?_, ?_, by decide, by decide, by decide, by decide⟩
  · intro url hurl
    subst hurl
    rw [cleanedURL_eq]
    simp [h, Object.get]
  · intro h1
    rw [resolveHref_eq, if_pos h1]
  · intro h1 h2
    rw [resolveHref_eq, if_neg h1, if_pos h2]
  · intro h1 h2
    rw [resolveHref_eq, if_neg h1, if_neg h2]

/-- C7, at the reference `about` on the base `http://example.com/page`. -/
theorem resolveHref_policy_witness :
    (cleanedURL "http" "example.com"
        { Href := "about", Content := "", Images := [], Emails := [] }).get "Href"
      = some (Value.str "http://example.com/about") := by
  have h := (resolveHref_policy "http" "example.com" "about" (by decide)).1
    { Href := "about", Content := "", Images := [], Emails := [] } rfl
  rw [h]
  decide

/-- C8: the output objects are the objects of the records that have some non-empty field,
in the order of the records; a record is dropped exactly when its target, text, images and
emails are all empty; so there are as many objects as records with a non-empty field. -/
theorem cleanedURLs_filters_empty_records (scheme host : String) (urls : List URL) :
    cleanedURLs scheme host urls
        = (urls.filter (fun r =>
              !decide (r.Href = "" ∧ r.Content = "" ∧ r.Images = [] ∧ r.Emails = []))).map
            (cleanedURL scheme host)
      ∧ (cleanedURLs scheme host urls).length
          = urls.countP (fun r =>
              decide (r.Href ≠ "" ∨ r.Content ≠ "" ∨ r.Images ≠ [] ∨ r.Emails ≠ [])) := by
  have h : cleanedURLs scheme host urls
      = (urls.filter (fun r =>
            !decide (r.Href = "" ∧ r.Content = "" ∧ r.Images = [] ∧ r.Emails = []))).map
          (cleanedURL scheme host) := by
    rw [cleanedURLs, cleanedURLsLoop_eq, List.nil_append]
  refine ⟨h, ?_⟩
  rw [h, List.length_map, ← List.countP_eq_length_filter]
  congr 1
  funext r
  by_cases h1 : r.Href = "" <;> by_cases h2 : r.Content = ""
    <;> by_cases h3 : r.Images = [] <;> by_cases h4 : r.Emails = []
    <;> simp [h1, h2, h3, h4]

/-- C9: in the object built from a record, `Href` is present exactly when the target is
not empty and then holds the resolved target, `Content` exactly when the text is not empty
and then holds it, `Images` exactly when there is an image and then holds the list,
`Emails` exactly when there is an email and then holds the list; no other key is present. -/
theorem cleanedURL_keys (scheme host : String) (r : URL) :
    (cleanedURL scheme host r).get "Href"
        = (if r.Href ≠ "" then some (Value.str (resolveHref scheme host r.Href)) else none)
      ∧ (cleanedURL scheme host r).get "Content"
        = (if r.Content ≠ "" then some (Value.str r.Content) else none)
      ∧ (cleanedURL scheme host r).get "Images"
        = (if r.Images ≠ [] then some (Value.images r.Images) else none)
      ∧ (cleanedURL scheme host r).get "Emails"
        = (if r.Emails ≠ [] then some (Value.strings r.Emails) else none)
      ∧ ∀ k : String, k ≠ "Href" → k ≠ "Content" → k ≠ "Images" → k ≠ "Emails" →
          (cleanedURL scheme host r).get k = none := by
  rw [cleanedURL_eq]
  refine ⟨?_, ?_, ?_, ?_, ?_⟩
  · by_cases h1 : r.Href = "" <;> by_cases h2 : r.Content = ""
      <;> by_cases h3 : r.Images = [] <;> by_cases h4 : r.Emails = []
      <;> simp [h1, h2, h3, h4, Object.get]
  · by_cases h1 : r.Href = "" <;> by_cases h2 : r.Content = ""
      <;> by_cases h3 : r.Images = [] <;> by_cases h4 : r.Emails = []
      <;> simp [h1, h2, h3, h4, Object.get]
  · by_cases h1 : r.Href = "" <;> by_cases h2 : r.Content = ""
      <;> by_cases h3 : r.Images = [] <;> by_cases h4 : r.Emails = []
      <;> simp [h1, h2, h3, h4, Object.get]
  · by_cases h1 : r.Href = "" <;> by_cases h2 : r.Content = ""
      <;> by_cases h3 : r.Images = [] <;> by_cases h4 : r.Emails = []
      <;> simp [h1, h2, h3, h4, Object.get]
  · intro k k1 k2 k3 k4
    have e1 : ¬ "Href" = k := fun e => k1 e.symm
    have e2 : ¬ "Content" = k := fun e => k2 e.symm
    have e3 : ¬ "Images" = k := fun e => k3 e.symm
    have e4 : ¬ "Emails" = k := fun e => k4 e.symm
    by_cases h1 : r.Href = "" <;> by_cases h2 : r.Content = ""
      <;> by_cases h3 : r.Images = [] <;> by_cases h4 : r.Emails = []
      <;> simp [h1, h2, h3, h4, Object.get, e1, e2, e3, e4]

/-- C10: a tree without any anchor element, such as a single childless root, yields no
record at all. -/
theorem parseNodes_no_anchor (n : Node)
    (h : ∀ m ∈ preorder n, ¬ (m.nodeType = NodeType.ElementNode ∧ m.Data = "a")) :
    parseNodes n = [] := by
  rw [parseNodes_eq_filter_map, List.map_eq_nil_iff, List.filter_eq_nil_iff]
  intro m hm
  rw [isAnchorNode_iff]
  simpa using h m hm

/-- C10, at a single childless document root. -/
theorem parseNodes_no_anchor_witness :
    parseNodes (Node.mk NodeType.DocumentNode "" [] []) = [] :=
  parseNodes_no_anchor (Node.mk NodeType.DocumentNode "" [] []) (by
    intro m hm
    simp [preorder, preorderList] at hm
    subst hm
    simp [Node.nodeType])

/-- C11: an anchor without `href` attribute whose subtree holds no text node, no `img`
element and no element with an `href` attribute still has its record in the output of
`parseNodes`, and every field of that record is empty. -/
theorem parseNodes_keeps_empty_record (root a : Node) (ha : a ∈ preorder root)
    (hanchor : a.nodeType = NodeType.ElementNode ∧ a.Data = "a")
    (h : ∀ m ∈ preorder a, m.nodeType ≠ NodeType.TextNode
      ∧ ¬ (m.nodeType = NodeType.ElementNode ∧ m.Data = "img")
      ∧ (m.nodeType = NodeType.ElementNode → ∀ x ∈ m.Attr, x.Key ≠ "href")) :
    parseAnchorNode a ∈ parseNodes root
      ∧ parseAnchorNode a = { Href := "", Content := "", Images := [], Emails := [] } := by
  constructor
  · rw [parseNodes_eq_filter_map]
    refine List.mem_map.2 ⟨a, List.mem_filter.2 ⟨ha, ?_⟩, rfl⟩
    rw [isAnchorNode_iff]
    exact decide_eq_true hanchor
  · have h1 : getHref a = "" := by
      rw [getHref, getHrefLoop_eq_find]
      have hno := (h a (mem_preorder_self a)).2.2 hanchor.1
      have : List.find? (fun x => decide (x.Key = "href")) a.Attr = none := by
        rw [List.find?_eq_none]
        intro x hx hp
        exact hno x hx (of_decide_eq_true hp)
      rw [this]; rfl
    have h2 : getText a = "" := getText_eq_empty_of_no_text a (fun m hm => (h m hm).1)
    have h3 : getImages a = [] := by
      rw [getImages_eq_filter_map, List.map_eq_nil_iff, List.filter_eq_nil_iff]
      intro m hm hp
      exact (h m hm).2.1 (of_decide_eq_true hp)
    have h4 : getEmails a = [] :=
      getEmails_eq_nil a (fun m hm => ⟨(h m hm).1, (h m hm).2.2⟩)
    rw [parseAnchorNode, h1, h2, h3, h4]

/-- C11, at the page `<body><a></a></body>`: the extraction holds the all-empty record. -/
theorem parseNodes_keeps_empty_record_witness :
    ({ Href := "", Content := "", Images := [], Emails := [] } : URL)
      ∈ parseNodes emptyAnchorDoc := by
  have h := parseNodes_keeps_empty_record emptyAnchorDoc (element "a" [] [])
    (by simp [emptyAnchorDoc, element, preorder, preorderList]) (by decide) (by decide)
  rw [← h.2]
  exact h.1

/-- C12: `extractEmails` returns exactly the matches of the pattern scan that the address
validation accepts, in scan order with repeats kept (every match being made of characters
of the pattern's classes and `@`, the strings on which the validation model applies); for
`not..valid@@example` it returns nothing, so neither that string nor a part of it. -/
theorem extractEmails_eq_filter (text : String) :
    extractEmails text = (FindAllString text).filter parseAddressOk
      ∧ (∀ m ∈ FindAllString text, ∀ c ∈ m.data, isCandidateChar c = true)
      ∧ extractEmails "not..valid@@example" = []
      ∧ extractEmails "x@y.org, .e@f.gh; x@y.org" = ["x@y.org", "e@f.gh", "x@y.org"]
      ∧ FindAllString "a@b.cd.e@f.gh" = ["a@b.cd", ".e@f.gh"]
      ∧ extractEmails "a@b.cd.e@f.gh" = ["a@b.cd"] := by
  refine ⟨?_, findAllAux_chars text.data none 0, by decide, by decide, by decide, by decide⟩
  rw [extractEmails, extractEmailsLoop_eq, List.nil_append]

/-- C15: the record's text has no leading and no trailing white space (trimming it again
changes nothing), and it is empty whenever every text node under the anchor holds white
space only. -/
theorem getText_is_trimmed (a : Node) :
    TrimSpace (parseAnchorNode a).Content = (parseAnchorNode a).Content
      ∧ (∀ c, (parseAnchorNode a).Content.data.head? = some c → isSpace c = false)
      ∧ (∀ c, (parseAnchorNode a).Content.data.getLast? = some c → isSpace c = false)
      ∧ ((∀ m ∈ preorder a, m.nodeType = NodeType.TextNode →
            ∀ c ∈ m.Data.data, isSpace c = true) →
          (parseAnchorNode a).Content = "") := by
  obtain ⟨s, hs⟩ := getText_eq_TrimSpace a
  have hc : (parseAnchorNode a).Content = TrimSpace s := hs
  refine ⟨?_, ?_, ?_, ?_⟩
  · rw [hc, TrimSpace_idem]
  · intro c h
    rw [hc] at h
    exact TrimSpace_head_not_space s c h
  · intro c h
    rw [hc] at h
    exact TrimSpace_last_not_space s c h
  · intro h
    exact getText_eq_empty_of_blank a h

/-- C16: for an anchor whose only child is a text node (a leaf), the record's emails are
the mail-link entry of the anchor, then the emails found in the trimmed content of the text
node, then the same emails once more. In general, along any path from a node down the tree
(each node a child of the one before, whatever their attributes and other children) whose
nodes all have the same text, the emails found in that text are listed once for every node
of the path, in the node's emails after its mail-link entry; when the path is a chain of
`k` single-child elements without attributes between the anchor and the text node, the
emails are exactly the mail-link entry and `k + 2` copies. -/
theorem getEmails_text_listed_per_level (a t : Node)
    (ha : a.nodeType = NodeType.ElementNode ∧ a.Data = "a") (hc : a.children = [t])
    (ht : t.nodeType = NodeType.TextNode) (hleaf : t.children = []) :
    (parseAnchorNode a).Emails
        = parseEmailLink a ++ extractEmails (TrimSpace t.Data)
          ++ extractEmails (TrimSpace t.Data)
      ∧ parseEmailLink a
        = ((a.Attr.find?
              (fun x => decide (x.Key = "href" ∧ "mailto:".data <+: x.Val.data))).map
            (fun x => String.mk (x.Val.data.drop 7))).toList
      ∧ (∀ (attrs : List Attribute) (tags : List String) (d : String),
          getEmails (element "a" attrs [wrapIn tags (textNode d)])
            = parseEmailLink (element "a" attrs [])
              ++ (List.replicate (tags.length + 2) (extractEmails (TrimSpace d))).flatten)
      ∧ (parseAnchorNode deepMailAnchor).Emails
        = ["bob@test.com", "bob@test.com", "bob@test.com", "bob@test.com", "bob@test.com"]
      ∧ (∀ (T : String) (n : Node) (path : List Node),
          List.Chain' (fun p c => c ∈ p.children) (n :: path) →
          (∀ m ∈ n :: path, getText m = T) →
          List.Sublist
            ((if isAnchorNode n then parseEmailLink n else [])
              ++ (List.replicate (path.length + 1) (extractEmails T)).flatten)
            (getEmails n))
      ∧ (parseAnchorNode spanMailAnchor).Emails = ["x@y.zz", "x@y.zz", "x@y.zz"]
      ∧ (parseAnchorNode imageBesideTextAnchor).Emails = ["x@y.zz", "x@y.zz", "x@y.zz"] := by
  refine ⟨?_, parseEmailLinkLoop_eq_find a.Attr, ?_, by decide,
    fun T n path => getEmails_path_sublist T path n, by decide, by decide⟩
  · cases a with
    | mk ta da aa ca =>
      cases t with
      | mk tt dt at_ ct =>
        have hc2 : ca = [Node.mk tt dt at_ ct] := hc
        have ht2 : tt = NodeType.TextNode := ht
        have hl2 : ct = [] := hleaf
        have hta : ta = NodeType.ElementNode := ha.1
        have hda : da = "a" := ha.2
        subst hc2 ht2 hl2 hta hda
        have hA : isAnchorNode (Node.mk NodeType.ElementNode "a" aa
            [Node.mk NodeType.TextNode dt at_ []]) = true := by
          rw [isAnchorNode_iff]; exact decide_eq_true ⟨rfl, rfl⟩
        have hT : isAnchorNode (Node.mk NodeType.TextNode dt at_ []) = false := by
          rw [isAnchorNode_iff]; simp [Node.nodeType]
        have htxt : getText (Node.mk NodeType.TextNode dt at_ []) = TrimSpace dt :=
          getText_mk _ _ _ _
        have htxa : getText (Node.mk NodeType.ElementNode "a" aa
            [Node.mk NodeType.TextNode dt at_ []]) = TrimSpace dt := by
          rw [getText_mk]
          show TrimSpace (String.join [getText (Node.mk NodeType.TextNode dt at_ [])]) = _
          rw [join_singleton, htxt, TrimSpace_idem]
        show getEmails _ = _
        rw [getEmails_mk, hA, if_pos rfl, htxa, List.flatMap_cons, List.flatMap_nil,
          List.append_nil, getEmails_mk, hT, htxt]
        simp [Node.Data]
  · intro attrs tags d
    have hA : isAnchorNode (Node.mk NodeType.ElementNode "a" attrs
        [wrapIn tags (textNode d)]) = true := by
      rw [isAnchorNode_iff]; exact decide_eq_true ⟨rfl, rfl⟩
    have htxa : getText (Node.mk NodeType.ElementNode "a" attrs [wrapIn tags (textNode d)])
        = TrimSpace d := getText_wrapIn ("a" :: tags) d
    show getEmails (Node.mk NodeType.ElementNode "a" attrs [wrapIn tags (textNode d)]) = _
    rw [getEmails_mk, hA, if_pos rfl, htxa, List.flatMap_cons, List.flatMap_nil,
      List.append_nil, getEmails_wrapIn, List.replicate_succ (n := tags.length + 1),
      List.flatten_cons]
    simp [parseEmailLink, Node.Attr, element]

/-- C16, at `<a href="mailto:a@example.com">contact a@example.com</a>`: the address of the
link text is listed twice after the mail-link entry; and along the path anchor, `span`,
text node of `<a href="/c"><span class="c">x@y.zz</span></a>` the address is listed three
times. -/
theorem getEmails_text_listed_per_level_witness :
    (parseAnchorNode mailAnchor).Emails
        = ["a@example.com"] ++ ["a@example.com"] ++ ["a@example.com"]
      ∧ List.Sublist ["x@y.zz", "x@y.zz", "x@y.zz"] (getEmails spanMailAnchor) := by
  have h := getEmails_text_listed_per_level mailAnchor (textNode "contact a@example.com")
    (by decide) rfl rfl rfl
  refine ⟨?_, ?_⟩
  · rw [h.1]
    decide
  · have hp := h.2.2.2.2.1 "x@y.zz" spanMailAnchor
      [element "span" [attr "class" "c"] [textNode "x@y.zz"], textNode "x@y.zz"]
      (List.chain'_cons.2 ⟨List.mem_singleton.2 rfl,
        List.chain'_cons.2 ⟨List.mem_singleton.2 rfl, List.chain'_singleton _⟩⟩)
      (by
        intro m hm
        simp only [List.mem_cons, List.mem_nil_iff, or_false] at hm
        rcases hm with rfl | rfl | rfl <;> decide)
    have he : (if isAnchorNode spanMailAnchor then parseEmailLink spanMailAnchor else [])
        ++ (List.replicate 3 (extractEmails "x@y.zz")).flatten
        = ["x@y.zz", "x@y.zz", "x@y.zz"] := by decide
    rw [← he]
    exact hp

/-- C13: when an anchor `b` lies strictly below an anchor `a`, the images of `b` are a
contiguous part of the images of `a`, the emails of `b` a contiguous part of the emails of
`a`, and the text of `b` is found in the text of `a` (the nodes with children below `a`
being elements, as in every parsed tree, where text and comment nodes are leaves); `b` has
its own record, after that of `a` in the records of `a`, which are a contiguous part of
the records of any tree that holds `a`. -/
theorem nested_anchor_content_included (a b : Node)
    (ha : a.nodeType = NodeType.ElementNode ∧ a.Data = "a")
    (hb : b.nodeType = NodeType.ElementNode ∧ b.Data = "a")
    (hdesc : b ∈ preorderList a.children) :
    (parseAnchorNode b).Images <:+: (parseAnchorNode a).Images
      ∧ (parseAnchorNode b).Emails <:+: (parseAnchorNode a).Emails
      ∧ ((∀ m ∈ preorder a, m.children ≠ [] → m.nodeType = NodeType.ElementNode) →
          (parseAnchorNode b).Content.data <:+: (parseAnchorNode a).Content.data)
      ∧ (∃ l1 l2, parseNodes a = parseAnchorNode a :: (l1 ++ parseAnchorNode b :: l2))
      ∧ ∀ root : Node, a ∈ preorder root → parseNodes a <:+: parseNodes root := by
  have hmem : b ∈ preorder a := by
    cases a with
    | mk t d as cs => exact List.mem_cons_of_mem _ hdesc
  refine ⟨getImages_infix_of_mem a b hmem, getEmails_infix_of_mem a b hmem,
    fun helems => getText_infix_of_mem a helems b hmem, ?_,
    fun root hroot => parseNodes_infix_of_mem root a hroot⟩
  cases a with
  | mk t d as cs =>
    have hA : isAnchorNode (Node.mk t d as cs) = true := by
      rw [isAnchorNode_iff]; exact decide_eq_true ha
    have hB : isAnchorNode b = true := by
      rw [isAnchorNode_iff]; exact decide_eq_true hb
    have hd : b ∈ cs.flatMap preorder := by
      rw [← preorderList_eq]; exact hdesc
    have hin : parseAnchorNode b
        ∈ ((cs.flatMap preorder).filter isAnchorNode).map parseAnchorNode :=
      List.mem_map.2 ⟨b, List.mem_filter.2 ⟨hd, hB⟩, rfl⟩
    obtain ⟨l1, l2, hl⟩ := List.append_of_mem hin
    refine ⟨l1, l2, ?_⟩
    rw [parseNodes_eq_filter_map, preorder_mk, List.filter_cons, if_pos hA, List.map_cons, hl]

/-- C13, at an anchor nested in a `div` of another anchor: the inner text `in` is found in
the outer text `outinend`, and the inner record is the second of the two records. -/
theorem nested_anchor_content_included_witness :
    "in".data <:+: "outinend".data
      ∧ ∃ l1 l2, parseNodes outerAnchor
          = parseAnchorNode outerAnchor :: (l1 ++ parseAnchorNode innerAnchor :: l2) := by
  have h := nested_anchor_content_included outerAnchor innerAnchor (by decide) (by decide)
    (by
      show innerAnchor ∈ preorderList
        [textNode "out ", element "div" [] [innerAnchor], textNode " end"]
      rw [preorderList_eq]
      exact List.mem_flatMap.2 ⟨element "div" [] [innerAnchor], by simp,
        mem_preorder_of_child (List.mem_singleton.2 rfl) (mem_preorder_self _)⟩)
  refine ⟨?_, h.2.2.2.1⟩
  have ht := h.2.2.1 (by
    intro m hm
    simp only [outerAnchor, innerAnchor, element, textNode, preorder, preorderList,
      List.cons_append, List.nil_append, List.append_nil, List.mem_cons,
      List.mem_nil_iff, or_false] at hm
    rcases hm with rfl | rfl | rfl | rfl | rfl | rfl | rfl <;> simp [Node.children, Node.nodeType])
  have e1 : (parseAnchorNode innerAnchor).Content = "in" := by decide
  have e2 : (parseAnchorNode outerAnchor).Content = "outinend" := by decide
  rw [e1, e2] at ht
  exact ht

/-- C14, as the code behaves: `parseImage` keeps the value of the last attribute with key
`src` (and of the last attribute with key `alt`), not of the first; for
`<img src="first.png" src="second.png" alt="one" alt="two">` it returns `second.png` and
`two`, whereas `getHref` returns the value of the first `href`. -/
theorem parseImage_keeps_last_attribute (m : Node) :
    (parseImage m).Src
        = ((m.Attr.reverse.find? (fun x => decide (x.Key = "src"))).map Attribute.Val).getD ""
      ∧ (parseImage m).Alt
        = ((m.Attr.reverse.find? (fun x => decide (x.Key = "alt"))).map Attribute.Val).getD ""
      ∧ parseImage twoSrcImage = { Src := "second.png", Alt := "two" }
      ∧ getHref (element "a" [attr "href" "/first", attr "href" "/second"] []) = "/first" := by
  refine ⟨parseImageLoop_src_last _ _, ?_, by decide, by decide⟩
  rw [parseImage, parseImageLoop_alt_last]
  congr 3
  funext x
  by_cases ha : x.Key = "alt"
  · simp [ha]
  · simp [ha]

/-- C17: with a base scheme that begins with `http` (such as `http` and `https`), the
resolved `Href` of a non-empty reference begins with `http`, is not empty, and resolving
it again on the same base gives it back unchanged; with a base scheme that does not begin
with `http` (such as `ftp`) there is a reference whose second resolution differs from the
first. -/
theorem resolveHref_idempotent_on_http (scheme host ref : String)
    (hs : "http".data <+: scheme.data) (hr : ref ≠ "") :
    (∀ url : URL, url.Href = ref →
        (cleanedURL scheme host url).get "Href"
            = some (Value.str (resolveHref scheme host ref))
          ∧ "http".data <+: (resolveHref scheme host ref).data
          ∧ ∀ url2 : URL, url2.Href = resolveHref scheme host ref →
              (cleanedURL scheme host url2).get "Href"
                = some (Value.str (resolveHref scheme host ref)))
      ∧ resolveHref scheme host (resolveHref scheme host ref) = resolveHref scheme host ref
      ∧ (∀ scheme2 host2 : String, ¬ "http".data <+: scheme2.data →
          ∃ ref2 : String, ref2 ≠ ""
            ∧ resolveHref scheme2 host2 (resolveHref scheme2 host2 ref2)
              ≠ resolveHref scheme2 host2 ref2)
      ∧ resolveHref "ftp" "site.test" "x" = "ftp://site.test/x"
      ∧ resolveHref "ftp" "site.test" (resolveHref "ftp" "site.test" "x")
        = "ftp://site.test/ftp://site.test/x" := by
  have hp := resolveHref_http_prefix scheme host ref hs
  have hi := resolveHref_of_http scheme host _ hp
  refine ⟨?_, hi, ?_, by decide, by decide⟩
  · intro url hurl
    subst hurl
    refine ⟨cleanedURL_get_Href scheme host url hr, hp, ?_⟩
    intro url2 hurl2
    have hne : url2.Href ≠ "" := by
      rw [hurl2]; exact resolveHref_ne_empty scheme host _ hr
    rw [cleanedURL_get_Href scheme host url2 hne, hurl2, hi]
  · intro scheme2 host2 hs2
    exact ⟨"x", by decide, resolveHref_twice_ne scheme2 host2 hs2⟩

/-- C17, at the base `https://site.test` and the reference `a/b`. -/
theorem resolveHref_idempotent_on_http_witness :
    resolveHref "https" "site.test" (resolveHref "https" "site.test" "a/b")
      = resolveHref "https" "site.test" "a/b" :=
  (resolveHref_idempotent_on_http "https" "site.test" "a/b" (by decide) (by decide)).2.1

/-- C18: a non-empty target that does not begin with `http` is resolved as a path: the
output `Href` is the origin followed by the target when the target begins with `/`, and
the origin, `/` and the target otherwise; so a target beginning with `mailto:` comes out
as origin, `/`, target, and `mailto:a@example.com` on `http://site.test` becomes
`http://site.test/mailto:a@example.com`. -/
theorem nonhttp_target_resolved_as_path (scheme host : String) (a : Node)
    (hne : getHref a ≠ "") (hnh : ¬ "http".data <+: (getHref a).data) :
    (cleanedURL scheme host (parseAnchorNode a)).get "Href"
        = some (Value.str
            (if "/".data <+: (getHref a).data then scheme ++ "://" ++ host ++ getHref a
             else scheme ++ "://" ++ host ++ "/" ++ getHref a))
      ∧ (∀ b : Node, "mailto:".data <+: (getHref b).data →
          (cleanedURL scheme host (parseAnchorNode b)).get "Href"
            = some (Value.str (scheme ++ "://" ++ host ++ "/" ++ getHref b)))
      ∧ (cleanedURL "http" "site.test" (parseAnchorNode mailAnchor)).get "Href"
        = some (Value.str "http://site.test/mailto:a@example.com")
      ∧ resolveHref "http" "site.test" "#top" = "http://site.test/#top"
      ∧ resolveHref "http" "site.test" "tel:1" = "http://site.test/tel:1"
      ∧ resolveHref "http" "site.test" "//host/p" = "http://site.test//host/p" := by
  refine ⟨?_, ?_, by decide, by decide, by decide, by decide⟩
  · have h : (cleanedURL scheme host (parseAnchorNode a)).get "Href"
        = some (Value.str (resolveHref scheme host (getHref a))) :=
      cleanedURL_get_Href scheme host (parseAnchorNode a) hne
    rw [h, resolveHref_eq, if_neg hnh]
  · intro b hb
    have hb2 := mailto_not_http (getHref b) hb
    have hbne : (parseAnchorNode b).Href ≠ "" := by
      intro he
      have he2 : getHref b = "" := he
      rw [he2] at hb
      revert hb
      decide
    have h : (cleanedURL scheme host (parseAnchorNode b)).get "Href"
        = some (Value.str (resolveHref scheme host (getHref b))) :=
      cleanedURL_get_Href scheme host (parseAnchorNode b) hbne
    rw [h, resolveHref_eq, if_neg hb2.1, if_neg hb2.2]

/-- C18, at the anchor `<a href="mailto:a@example.com">contact a@example.com</a>`. -/
theorem nonhttp_target_resolved_as_path_witness :
    (cleanedURL "http" "site.test" (parseAnchorNode mailAnchor)).get "Href"
      = some (Value.str "http://site.test/mailto:a@example.com") := by
  have h := (nonhttp_target_resolved_as_path "http" "site.test" mailAnchor
    (by decide) (by decide)).1
  rw [h]
  decide

/-- C19: the mail-link entry is the rest of the first `mailto:` href as it is, without
validation: when that href is `mailto:` followed by `s`, the first email of the record is
`s`, also for the empty `s` and for an `s` that `extractEmails` does not return; the anchor
`<a href="mailto:"></a>` has the emails list holding the empty string alone, which has an
element, so the record is kept by the output stage with its `Emails` key. -/
theorem mail_link_entry_verbatim (a : Node) (x : Attribute) (s : String)
    (ha : a.nodeType = NodeType.ElementNode ∧ a.Data = "a")
    (hfind : a.Attr.find? (fun y => decide (y.Key = "href" ∧ "mailto:".data <+: y.Val.data))
      = some x)
    (hval : x.Val = "mailto:" ++ s) :
    (parseAnchorNode a).Emails.head? = some s
      ∧ (parseAnchorNode subjectMailAnchor).Emails = ["a@b.com?subject=hi"]
      ∧ extractEmails "a@b.com?subject=hi" = ["a@b.com"]
      ∧ (parseAnchorNode bareMailAnchor).Emails = [""]
      ∧ (∀ scheme host : String,
          (cleanedURLs scheme host [parseAnchorNode bareMailAnchor]).length = 1
            ∧ (cleanedURL scheme host (parseAnchorNode bareMailAnchor)).get "Emails"
              = some (Value.strings [""])
            ∧ cleanedURLs scheme host
                [{ Href := "", Content := "", Images := [], Emails := [""] }]
              = [[("Emails", Value.strings [""])]]) := by
  refine ⟨?_, by decide, by decide, by decide, ?_⟩
  · cases a with
    | mk t d as cs =>
      have hA : isAnchorNode (Node.mk t d as cs) = true := by
        rw [isAnchorNode_iff]; exact decide_eq_true ha
      show (getEmails (Node.mk t d as cs)).head? = some s
      rw [getEmails_mk, hA, if_pos rfl, parseEmailLink_of_find _ x s hfind hval]
      rfl
  · intro scheme host
    have hE : (parseAnchorNode bareMailAnchor).Emails = [""] := by decide
    have hI : (parseAnchorNode bareMailAnchor).Images = [] := by decide
    have hC : (parseAnchorNode bareMailAnchor).Content = "" := by decide
    have hH : (parseAnchorNode bareMailAnchor).Href = "mailto:" := by decide
    refine ⟨?_, ?_, ?_⟩
    · rw [cleanedURLs, cleanedURLsLoop_eq]
      simp [hE]
    · rw [cleanedURL_eq, hE, hI, hC, hH]
      simp [Object.get]
    · rw [cleanedURLs, cleanedURLsLoop_eq, List.nil_append]
      simp [cleanedURL_eq]

/-- C19, at the anchor `<a href="mailto:a@b.com?subject=hi"></a>`. -/
theorem mail_link_entry_verbatim_witness :
    (parseAnchorNode subjectMailAnchor).Emails.head? = some "a@b.com?subject=hi" :=
  (mail_link_entry_verbatim subjectMailAnchor (attr "href" "mailto:a@b.com?subject=hi")
    "a@b.com?subject=hi" (by decide) (by decide) (by decide)).1

end LinkParser
